import Mathlib

/-!
# Notebook Navigator — verification of the tag-tree and shortcut engines

A shallow embedding of the tag-tree builder (`buildTagTreeFromDatabase`,
`buildTreeFromList`, `getTotalNoteCount`, `excludeFromTagTree`) and of the
shortcut collection store (`removeShortcut`, `reorderShortcuts`) of the
Notebook Navigator plugin, together with proofs about them.

JavaScript strings are modelled as `List Char`; JavaScript `Set` objects whose
contents are only ever queried for membership and size are modelled as
`Finset`; JavaScript `Map` objects are modelled as association lists in
insertion order, with `Map.set` replacing in place.  Mutable node objects
shared between the `allNodes` map, the root map and the `children` maps are
modelled as a keyed graph: nodes live in one association list (`allNodes`) and
every reference to a node is the node's key.
-/

/-- JavaScript strings as lists of characters. -/
abbrev Str := List Char

/-- Shorthand to write string literals for the model. -/
def str (s : String) : Str := s.toList

/-- ASCII lower-casing of one character, the model of JS `toLowerCase` on the
character sets exercised here. -/
def charLower (c : Char) : Char :=
  if h : 65 ≤ c.toNat ∧ c.toNat ≤ 90 then
    Char.ofNatAux (c.toNat + 32) (Or.inl (by omega))
  else c

/-- Lower-case a string. -/
def strLower (s : Str) : Str := s.map charLower

/-- `tag.startsWith('#') ? tag.substring(1) : tag`. -/
def stripHash (s : Str) : Str :=
  match s with
  | '#' :: t => t
  | _ => s

/-- Drop leading slashes (`.replace(/^\/+/, '')`). -/
def dropLeadSlash (s : Str) : Str := s.dropWhile (fun c => c = '/')

/-- Drop trailing slashes (`.replace(/\/+$/, '')`). -/
def dropTrailSlash (s : Str) : Str := (dropLeadSlash s.reverse).reverse

/-- `.replace(/^\/+|\/+$/g, '')`: strip boundary slashes. -/
def trimSlashes (s : Str) : Str := dropTrailSlash (dropLeadSlash s)

/-- The canonicalization written inline in `buildTagTreeFromDatabase` and
`recordHiddenRootTag`: strip one leading `#`, then strip boundary slashes. -/
def canonicalTagPath (s : Str) : Str := trimSlashes (stripHash s)

/-- Modelled from the spec: `normalizeTagPathValue` (from `tagPrefixMatcher`) is
not among the provided sources.  Per the spec the Tag Normalizer "canonicalizes
a raw tag string to a lowercase path key ...; strips leading `#` and slashes",
i.e. it strips a leading hash, trims boundary slashes and lower-cases. -/
def normalizeTagPathValue (s : Str) : Str := strLower (trimSlashes (stripHash s))

/-- `split('/')`, with JavaScript semantics (`"".split('/') = [""]`,
`"a/".split('/') = ["a", ""]`). -/
def splitSlash : Str → List Str
  | [] => [[]]
  | c :: t =>
    if c = '/' then [] :: splitSlash t
    else
      match splitSlash t with
      | [] => [[c]]
      | p :: ps => (c :: p) :: ps

/-- `join('/')`. -/
def joinSlash : List Str → Str
  | [] => []
  | [p] => p
  | p :: q :: ps => p ++ '/' :: joinSlash (q :: ps)

/-- Number of slashes in a string. -/
def slashCount (s : Str) : Nat := s.count '/'

-- ### Basic facts about the character/string primitives

theorem charOfNatAux_toNat (n : Nat) (h : Char.isValidCharNat n) :
    (Char.ofNatAux n h).toNat = n := by
  simp [Char.ofNatAux, Char.toNat, UInt32.ofNat', UInt32.toNat]

theorem charLower_toNat (c : Char) (h : 65 ≤ c.toNat ∧ c.toNat ≤ 90) :
    (charLower c).toNat = c.toNat + 32 := by
  unfold charLower
  rw [dif_pos h]
  exact charOfNatAux_toNat _ _

theorem charLower_eq_self (c : Char) (h : ¬ (65 ≤ c.toNat ∧ c.toNat ≤ 90)) :
    charLower c = c := by
  unfold charLower
  rw [dif_neg h]

theorem charLower_idem (c : Char) : charLower (charLower c) = charLower c := by
  by_cases h : 65 ≤ c.toNat ∧ c.toNat ≤ 90
  · have h1 : (charLower c).toNat = c.toNat + 32 := charLower_toNat c h
    apply charLower_eq_self
    omega
  · rw [charLower_eq_self c h, charLower_eq_self c h]

theorem charLower_eq_iff (c d : Char) (hd1 : ¬ (65 ≤ d.toNat ∧ d.toNat ≤ 90))
    (hd2 : ¬ (97 ≤ d.toNat ∧ d.toNat ≤ 122)) :
    charLower c = d ↔ c = d := by
  constructor
  · intro h
    by_cases hc : 65 ≤ c.toNat ∧ c.toNat ≤ 90
    · exfalso
      have h1 := charLower_toNat c hc
      rw [h] at h1
      exact hd2 ⟨by omega, by omega⟩
    · rwa [charLower_eq_self c hc] at h
  · intro h
    subst h
    exact charLower_eq_self c hd1

theorem charLower_slash_iff (c : Char) : charLower c = '/' ↔ c = '/' := by
  apply charLower_eq_iff
  · intro h
    have : ('/' : Char).toNat = 47 := rfl
    omega
  · intro h
    have : ('/' : Char).toNat = 47 := rfl
    omega

theorem charLower_hash_iff (c : Char) : charLower c = '#' ↔ c = '#' := by
  apply charLower_eq_iff
  · intro h
    have : ('#' : Char).toNat = 35 := rfl
    omega
  · intro h
    have : ('#' : Char).toNat = 35 := rfl
    omega

theorem strLower_idem (s : Str) : strLower (strLower s) = strLower s := by
  unfold strLower
  rw [List.map_map]
  apply List.map_congr_left
  intro c _
  exact charLower_idem c

theorem strLower_length (s : Str) : (strLower s).length = s.length := by
  unfold strLower
  exact List.length_map _ _

theorem dropLeadSlash_head (s : Str) (c : Char) (h : (dropLeadSlash s).head? = some c) :
    ¬ c = '/' := by
  unfold dropLeadSlash at h
  induction s with
  | nil => simp at h
  | cons a t ih =>
    rw [List.dropWhile_cons] at h
    by_cases ha : a = '/'
    · rw [if_pos (by simp [ha])] at h
      exact ih h
    · rw [if_neg (by simp [ha])] at h
      simp only [List.head?_cons, Option.some.injEq] at h
      exact h ▸ ha

theorem dropLeadSlash_eq_self (s : Str) (h : ∀ c, s.head? = some c → ¬ c = '/') :
    dropLeadSlash s = s := by
  unfold dropLeadSlash
  cases s with
  | nil => rfl
  | cons a t =>
    rw [List.dropWhile_cons, if_neg]
    simp only [decide_eq_true_eq]
    exact h a rfl

theorem dropTrailSlash_last (s : Str) (c : Char) (h : (dropTrailSlash s).getLast? = some c) :
    ¬ c = '/' := by
  unfold dropTrailSlash at h
  rw [List.getLast?_reverse] at h
  exact dropLeadSlash_head s.reverse c h

theorem dropTrailSlash_eq_self (s : Str) (h : ∀ c, s.getLast? = some c → ¬ c = '/') :
    dropTrailSlash s = s := by
  unfold dropTrailSlash
  rw [dropLeadSlash_eq_self, List.reverse_reverse]
  intro c hc
  apply h
  rw [← List.head?_reverse]
  exact hc

-- ### Association lists: the model of JS `Map` (insertion order, `set` replaces)

def alFind {β : Type} : List (Str × β) → Str → Option β
  | [], _ => none
  | (k', v) :: t, k => if k' = k then some v else alFind t k

def alSet {β : Type} : List (Str × β) → Str → β → List (Str × β)
  | [], k, v => [(k, v)]
  | (k', v') :: t, k, v => if k' = k then (k, v) :: t else (k', v') :: alSet t k v

def alHas {β : Type} (m : List (Str × β)) (k : Str) : Bool := (alFind m k).isSome

/-- `path.endsWith(t)`. -/
def strEndsWith (s t : Str) : Bool := t.isSuffixOf s

-- ### The tag tree data model (src/types/storage `TagTreeNode`)

/-- A tag tree node.  The mutable node objects shared between `allNodes`, the
root map and the `children` maps of the source are modelled as entries of one
association list keyed by the node's normalized path; `children` holds the
keys of the child nodes. -/
structure TagNode where
  name : Str
  path : Str
  displayPath : Str
  children : List Str
  notesWithTag : Finset Str
deriving DecidableEq

/-- Modelled from the spec: `isPathInExcludedFolder` from `fileFilters` is not
among the provided sources.  The spec says a file is excluded when "its path
lies in an excluded folder (by pattern match)"; modelled as: some pattern
equals the path or is a slash-terminated ancestor folder of it. -/
def isPathInExcludedFolder (path : Str) (patterns : List Str) : Bool :=
  patterns.any (fun q => q == path || (q ++ ['/']).isPrefixOf path)

/-- State accumulated by the first pass of `buildTagTreeFromDatabase`. -/
structure ScanState where
  filesProcessed : Nat
  untagged : Nat
  caseMap : List (Str × Str)
  allTagsSet : List Str
  tagFiles : List (Str × Finset Str)
  hiddenRootTags : List (Str × TagNode)
deriving DecidableEq

/-- `recordHiddenRootTag` (src/unnamed/part_001, lines 76-103). -/
def recordHiddenRootTag (tagValue filePath : Str) (hidden : List (Str × TagNode)) :
    List (Str × TagNode) :=
  let canonical := canonicalTagPath tagValue
  if canonical = [] then hidden
  else
    let rootCanonical := (splitSlash canonical).headD []
    if rootCanonical = [] then hidden
    else
      let normalizedRoot := normalizeTagPathValue rootCanonical
      if normalizedRoot = [] then hidden
      else
        match alFind hidden normalizedRoot with
        | some node =>
          alSet hidden normalizedRoot
            { node with notesWithTag := insert filePath node.notesWithTag }
        | none =>
          alSet hidden normalizedRoot
            ⟨rootCanonical, normalizedRoot, rootCanonical, [],
              insert filePath (∅ : Finset Str)⟩

/-- The body of the per-tag loop of the first pass
(src/unnamed/part_001, lines 159-183). -/
def scanTag (path : Str) (st : ScanState) (tag : Str) : ScanState :=
  let canonicalPath := canonicalTagPath tag
  let normalizedPath := normalizeTagPathValue tag
  if canonicalPath = [] ∨ normalizedPath = [] then st
  else
    let storedCanonical := (alFind st.caseMap normalizedPath).getD canonicalPath
    let caseMap' :=
      if alHas st.caseMap normalizedPath then st.caseMap
      else alSet st.caseMap normalizedPath canonicalPath
    let allTags' :=
      if storedCanonical ∈ st.allTagsSet then st.allTagsSet
      else st.allTagsSet ++ [storedCanonical]
    let tagFiles' :=
      match alFind st.tagFiles storedCanonical with
      | some s => alSet st.tagFiles storedCanonical (insert path s)
      | none => alSet st.tagFiles storedCanonical (insert path (∅ : Finset Str))
    { st with caseMap := caseMap', allTagsSet := allTags', tagFiles := tagFiles' }

/-- The body of the per-file loop of the first pass, after the file cap check
(src/unnamed/part_001, lines 121-183). -/
def scanFile (excludedPatterns : Option (List Str)) (hasExcludedFolders : Bool)
    (includedPaths : Option (List Str)) (st : ScanState) (path : Str)
    (tags? : Option (List Str)) : ScanState :=
  let isExcluded :=
    match excludedPatterns with
    | some ps => isPathInExcludedFolder path ps
    | none => false
  let inclSkip :=
    match includedPaths with
    | some ip => !(ip.contains path)
    | none => false
  if inclSkip then st
  else if isExcluded then
    match tags? with
    | none => st
    | some tags =>
      if !hasExcludedFolders || tags.isEmpty then st
      else
        { st with hiddenRootTags :=
            tags.foldl (fun h t => recordHiddenRootTag t path h) st.hiddenRootTags }
  else
    match tags? with
    | none => st
    | some [] =>
      if strEndsWith path (str ".md") then { st with untagged := st.untagged + 1 }
      else st
    | some tags =>
      if tags.length > 1000 then st
      else tags.foldl (scanTag path) st

/-- The first pass over all files, with the 100000-file hard cap: the counter
is bumped for the file at hand and, at the 100001st file, the loop breaks
before processing it (src/unnamed/part_001, lines 108-184). -/
def scanFiles (excludedPatterns : Option (List Str)) (hasExcludedFolders : Bool)
    (includedPaths : Option (List Str)) :
    ScanState → List (Str × Option (List Str)) → ScanState
  | st, [] => st
  | st, (path, tags?) :: rest =>
    let st1 := { st with filesProcessed := st.filesProcessed + 1 }
    if st1.filesProcessed > 100000 then st1
    else
      scanFiles excludedPatterns hasExcludedFolders includedPaths
        (scanFile excludedPatterns hasExcludedFolders includedPaths st1 path tags?) rest

/-- The whole first pass of `buildTagTreeFromDatabase`. -/
def scanDatabase (files : List (Str × Option (List Str)))
    (excludedFolderPatterns : Option (List Str))
    (includedPaths : Option (List Str)) : ScanState :=
  let hasExcludedFolders :=
    match excludedFolderPatterns with
    | some ps => !ps.isEmpty
    | none => false
  let excludedPatterns := if hasExcludedFolders then excludedFolderPatterns else none
  scanFiles excludedPatterns hasExcludedFolders includedPaths ⟨0, 0, [], [], [], []⟩ files

/-- Modelled from the spec: `naturalCompare` from `sortUtils` is not among the
provided sources.  The spec requires only a deterministic total order
("sorting is an optimization, not a correctness requirement"); modelled as
character-code lexicographic order. -/
def strLeB : Str → Str → Bool
  | [], _ => true
  | _ :: _, [] => false
  | x :: xs, y :: ys => if x = y then strLeB xs ys else decide (x.toNat < y.toNat)

/-- `tagPaths.sort((a, b) => naturalCompare(a, b))`. -/
def sortTags (l : List Str) : List Str :=
  List.insertionSort (fun a b => strLeB a b = true) l

/-- The get-or-create step for one path segment: look the node up by its
normalized key, create it (registering a root when at the first segment)
when absent. -/
def stepCreate (env : List (Str × TagNode)) (roots : List Str)
    (key part currentPath : Str) (isRoot : Bool) : List (Str × TagNode) × List Str :=
  match alFind env key with
  | some _ => (env, roots)
  | none =>
    (alSet env key ⟨part, key, currentPath, [], ∅⟩,
      if isRoot then roots ++ [key] else roots)

/-- The file-set attachment step: only at the last segment, the node for the
full tag path receives the tag's file set from `tagFiles`. -/
def stepAttach (tagFiles : List (Str × Finset Str)) (env : List (Str × TagNode))
    (key currentPath : Str) (isLast : Bool) : List (Str × TagNode) :=
  if isLast then
    match alFind tagFiles currentPath with
    | some files =>
      match alFind env key with
      | some node => alSet env key { node with notesWithTag := files }
      | none => env
    | none => env
  else env

/-- The child-link step: append the key to the parent's children unless it is
already there (or the parent does not exist). -/
def stepLink (env : List (Str × TagNode)) (key parentPath : Str) :
    List (Str × TagNode) :=
  match alFind env parentPath with
  | some parent =>
    if key ∈ parent.children then env
    else alSet env parentPath { parent with children := parent.children ++ [key] }
  | none => env

/-- The per-segment loop of `buildTreeFromList` for one tag path
(src/unnamed/part_001, lines 206-259): walk the split segments, get-or-create
the node keyed by the normalized accumulated path, attach the tag's file set
at the last segment only, and link the node into its parent's children. -/
def buildParts (tagFiles : List (Str × Finset Str)) (parts0 : List Str) :
    List Str → Nat → Str → List (Str × TagNode) → List Str →
    List (Str × TagNode) × List Str
  | [], _, _, env, roots => (env, roots)
  | part :: rest, i, prevPath, env, roots =>
    let currentPath := if i = 0 then part else prevPath ++ '/' :: part
    let key := normalizeTagPathValue currentPath
    if key = [] then buildParts tagFiles parts0 rest (i + 1) currentPath env roots
    else
      let er := stepCreate env roots key part currentPath (i = 0)
      let env2 := stepAttach tagFiles er.1 key currentPath rest.isEmpty
      let env3 :=
        if i = 0 then env2
        else stepLink env2 key (normalizeTagPathValue (joinSlash (parts0.take i)))
      buildParts tagFiles parts0 rest (i + 1) currentPath env3 er.2

/-- `buildTreeFromList` (src/unnamed/part_001, lines 190-262): result is the
node graph (`allNodes`) together with the root-level keys (the `tree` map). -/
def buildTreeFromList (tagFiles : List (Str × Finset Str)) (tagPaths : List Str) :
    List (Str × TagNode) × List Str :=
  if tagPaths.length > 100000 then ([], [])
  else
    (sortTags tagPaths).foldl
      (fun acc tagPath =>
        let parts := splitSlash tagPath
        if parts.length > 100 then acc
        else buildParts tagFiles parts parts 0 [] acc.1 acc.2)
      ([], [])

/-- The result of `buildTagTreeFromDatabase`: the node graph, the root keys of
the returned `tagTree` map, the untagged count and the hidden root tags. -/
structure TagTreeResult where
  allNodes : List (Str × TagNode)
  tagTree : List Str
  untagged : Nat
  hiddenRootTags : List (Str × TagNode)
deriving DecidableEq

/-- `buildTagTreeFromDatabase` (src/unnamed/part_001, lines 58-279). -/
def buildTagTreeFromDatabase (files : List (Str × Option (List Str)))
    (excludedFolderPatterns : Option (List Str))
    (includedPaths : Option (List Str)) : TagTreeResult :=
  let st := scanDatabase files excludedFolderPatterns includedPaths
  let built := buildTreeFromList st.tagFiles st.allTagsSet
  let hidden :=
    if st.hiddenRootTags.isEmpty then st.hiddenRootTags
    else st.hiddenRootTags.filter (fun kv => !(built.2.contains kv.1))
  ⟨built.1, built.2, st.untagged, hidden⟩

-- ### The count aggregator (`getTotalNoteCount`)

/-- The loop over an expanded node's children: each child's own file set is
added to the accumulator and then the child is collected with `rec_`, the
recursion at the next depth. -/
def collectChildren (env : List (Str × TagNode)) (rec_ : Finset Str → Str → Finset Str) :
    List Str → Finset Str → Finset Str
  | [], acc => acc
  | childKey :: rest, acc =>
    let acc1 :=
      match alFind env childKey with
      | none => acc
      | some child => rec_ (acc ∪ child.notesWithTag) childKey
    collectChildren env rec_ rest acc1

/-- `collectFromChildren` (src/unnamed/part_001, lines 304-323): the guards
mirror the source's `visited` stack set and depth counter, with
`fuel = MAX_DEPTH - depth`. -/
def collectNode (env : List (Str × TagNode)) :
    Nat → List Str → Finset Str → Str → Finset Str
  | 0, _, acc, _ => acc
  | fuel + 1, visited, acc, key =>
    match alFind env key with
    | none => acc
    | some n =>
      if n.path ∈ visited then acc
      else
        collectChildren env
          (fun a k => collectNode env fuel (n.path :: visited) a k) n.children acc

/-- `getTotalNoteCount` (src/unnamed/part_001, lines 285-332).  The per-tree
WeakMap memo cache is not modelled: within one tree it only replays the value
this pure computation produces. -/
def getTotalNoteCount (env : List (Str × TagNode)) (key : Str) : Nat :=
  match alFind env key with
  | none => 0
  | some n => (collectNode env 50 [] n.notesWithTag key).card

/-- Union of `rec_` over a list of keys, folded into an accumulator. -/
def descUnionList (rec_ : Str → Finset Str) : List Str → Finset Str → Finset Str
  | [], acc => acc
  | ck :: rest, acc => descUnionList rec_ rest (acc ∪ rec_ ck)

/-- The union of `notesWithTag` over a node and all of its descendants --- the
semantics the spec ascribes to the count aggregator --- as a fuel-bounded
recursion through the child links of the node graph. -/
def descUnion (env : List (Str × TagNode)) : Nat → Str → Finset Str
  | 0, _ => ∅
  | fuel + 1, key =>
    match alFind env key with
    | none => ∅
    | some n => descUnionList (fun k => descUnion env fuel k) n.children n.notesWithTag

-- ### The hidden-tag filter (`excludeFromTagTree`)

/-- A tag tree node as a pure tree value, the shape `excludeFromTagTree`
consumes and produces (`children` keeps the map keys in insertion order). -/
inductive ITagTreeNode : Type where
  | node (name path displayPath : Str) (children : List (Str × ITagTreeNode))
      (notesWithTag : Finset Str) : ITagTreeNode

def ITagTreeNode.name : ITagTreeNode → Str
  | .node n _ _ _ _ => n

def ITagTreeNode.path : ITagTreeNode → Str
  | .node _ p _ _ _ => p

def ITagTreeNode.displayPath : ITagTreeNode → Str
  | .node _ _ d _ _ => d

def ITagTreeNode.children : ITagTreeNode → List (Str × ITagTreeNode)
  | .node _ _ _ c _ => c

def ITagTreeNode.notesWithTag : ITagTreeNode → Finset Str
  | .node _ _ _ _ s => s

/-- `HiddenTagMatcher` (from `tagPrefixMatcher`): the compiled hidden-tag
rules. -/
structure HiddenTagMatcher where
  prefixes : List Str
  startsWithNames : List Str
  endsWithNames : List Str

/-- Modelled from the spec: `matchesHiddenTagPattern` from `tagPrefixMatcher` is
not among the provided sources.  Per the spec the three rule kinds are
evaluated against a node's normalized path and bare name: exact-prefix (node
path equals a configured value or starts with it at a segment boundary),
starts-with-name, ends-with-name. -/
def matchesHiddenTagPattern (path name : Str) (m : HiddenTagMatcher) : Bool :=
  m.prefixes.any (fun q => q == path || (q ++ ['/']).isPrefixOf path)
    || m.startsWithNames.any (fun q => q.isPrefixOf name)
    || m.endsWithNames.any (fun q => q.isSuffixOf name)

mutual

/-- `shouldIncludeNode` (src/unnamed/part_001, lines 409-459): `none` when the
node is excluded, otherwise the node with recursively filtered children;
`visited` and `depth` mirror the source's cycle guard and depth cap. -/
def shouldIncludeNode (m : HiddenTagMatcher) (visited : List Str) (depth : Nat) :
    ITagTreeNode → Option ITagTreeNode
  | .node nm p dp cs files =>
    if p ∈ visited then none
    else if 50 ≤ depth then none
    else if matchesHiddenTagPattern p nm m then none
    else if (filterChildrenList m (p :: visited) (depth + 1) cs).isEmpty ∧ files = ∅ then
      none
    else
      some (.node nm p dp (filterChildrenList m (p :: visited) (depth + 1) cs) files)

/-- The loop over a node's children inside `shouldIncludeNode`. -/
def filterChildrenList (m : HiddenTagMatcher) (visited : List Str) (depth : Nat) :
    List (Str × ITagTreeNode) → List (Str × ITagTreeNode)
  | [] => []
  | (k, c) :: rest =>
    match shouldIncludeNode m visited depth c with
    | some c' => (k, c') :: filterChildrenList m visited depth rest
    | none => filterChildrenList m visited depth rest

end

/-- The loop of `excludeFromTagTree` over the root map entries: each root is
filtered with fresh `visited`/`depth` state (the source restores both on
exit), kept when `shouldIncludeNode` keeps it. -/
def excludeRootsList (m : HiddenTagMatcher) : List (Str × ITagTreeNode) →
    List (Str × ITagTreeNode)
  | [] => []
  | (k, n) :: rest =>
    match shouldIncludeNode m [] 0 n with
    | some n' => (k, n') :: excludeRootsList m rest
    | none => excludeRootsList m rest

/-- `excludeFromTagTree` (src/unnamed/part_001, lines 397-470). -/
def excludeFromTagTree (tree : List (Str × ITagTreeNode)) (m : HiddenTagMatcher) :
    List (Str × ITagTreeNode) :=
  if m.prefixes.isEmpty ∧ m.startsWithNames.isEmpty ∧ m.endsWithNames.isEmpty then tree
  else excludeRootsList m tree

mutual

/-- A node together with all nodes of its subtree. -/
def subNodes : ITagTreeNode → List ITagTreeNode
  | .node nm p dp cs files => ITagTreeNode.node nm p dp cs files :: subNodesList cs

/-- All nodes of the subtrees of a children list. -/
def subNodesList : List (Str × ITagTreeNode) → List ITagTreeNode
  | [] => []
  | (_, c) :: rest => subNodes c ++ subNodesList rest

end

-- ### The shortcut collection store (src/src/context/ShortcutsContext.tsx)

/-- `ShortcutEntry`: the tagged union of shortcut kinds. -/
inductive ShortcutEntry : Type where
  | folder (path : Str)
  | note (path : Str)
  | tag (tagPath : Str)
  | search (name query provider : Str)
deriving DecidableEq

/-- Modelled from the spec: `getShortcutKey` from `types/shortcuts` is not
among the provided sources.  The spec says the key is "derived
deterministically from type+discriminating field(s) (path, or
name+query+provider)". -/
def getShortcutKey : ShortcutEntry → Str
  | .folder p => str "folder:" ++ p
  | .note p => str "note:" ++ p
  | .tag p => str "tag:" ++ p
  | .search n q pr => str "search:" ++ n ++ ':' :: q ++ ':' :: pr

/-- `ShortcutCollection`. -/
structure ShortcutCollection where
  id : Str
  name : Str
  icon : Str
  shortcuts : List ShortcutEntry
  isDefault : Bool
deriving DecidableEq

/-- The slice of the settings state the shortcut store operates on. -/
structure NavSettings where
  shortcutCollections : List ShortcutCollection
  activeShortcutCollection : Option Str
deriving DecidableEq

/-- `settings.activeShortcutCollection ?? 'default'`. -/
def activeCollectionId (s : NavSettings) : Str :=
  s.activeShortcutCollection.getD (str "default")

/-- `collections.find(c => c.id === activeCollectionId) || collections[0]`. -/
def activeCollection (s : NavSettings) : Option ShortcutCollection :=
  match s.shortcutCollections.find? (fun c => c.id == activeCollectionId s) with
  | some c => some c
  | none => s.shortcutCollections.head?

/-- `activeCollection?.shortcuts ?? []`. -/
def collectionShortcuts (s : NavSettings) : List ShortcutEntry :=
  ((activeCollection s).map ShortcutCollection.shortcuts).getD []

/-- `shortcutMap` (src/src/context/ShortcutsContext.tsx, lines 280-286): keys of
the ACTIVE collection's shortcuts. -/
def shortcutMap (s : NavSettings) : List (Str × ShortcutEntry) :=
  (collectionShortcuts s).foldl (fun m e => alSet m (getShortcutKey e) e) []

/-- `removeShortcut` (src/src/context/ShortcutsContext.tsx, lines 780-797):
reject keys absent from the active collection's map, otherwise strip the key
from EVERY collection's list. -/
def removeShortcut (s : NavSettings) (key : Str) : NavSettings × Bool :=
  if alHas (shortcutMap s) key then
    ({ s with shortcutCollections :=
        s.shortcutCollections.map (fun c =>
          { c with shortcuts := c.shortcuts.filter (fun e => !(getShortcutKey e == key)) }) },
      true)
  else (s, false)

/-- The key-resolution loop of `reorderShortcuts`: `none` as soon as one key is
not in the active collection's map. -/
def resolveKeys (m : List (Str × ShortcutEntry)) : List Str → Option (List ShortcutEntry)
  | [] => some []
  | k :: rest =>
    match alFind m k with
    | none => none
    | some e => (resolveKeys m rest).map (fun es => e :: es)

/-- The `updateSettings` body of `reorderShortcuts`: replace the shortcuts of
the first collection whose id is the active id, if any. -/
def setActiveShortcuts : List ShortcutCollection → Str → List ShortcutEntry →
    List ShortcutCollection
  | [], _, _ => []
  | c :: t, cid, entries =>
    if c.id = cid then { c with shortcuts := entries } :: t
    else c :: setActiveShortcuts t cid entries

/-- `reorderShortcuts` (src/src/context/ShortcutsContext.tsx, lines 814-847). -/
def reorderShortcuts (s : NavSettings) (orderedKeys : List Str) : NavSettings × Bool :=
  if orderedKeys.length ≠ (collectionShortcuts s).length then (s, false)
  else
    match resolveKeys (shortcutMap s) orderedKeys with
    | none => (s, false)
    | some entries =>
      ({ s with shortcutCollections :=
          setActiveShortcuts s.shortcutCollections (activeCollectionId s) entries },
        true)

-- ### Shortcut store lemmas

theorem resolveKeys_eq_some_of_all_has (m : List (Str × ShortcutEntry)) (ks : List Str)
    (h : ∀ k ∈ ks, alHas m k = true) : ∃ es, resolveKeys m ks = some es := by
  induction ks with
  | nil => exact ⟨[], rfl⟩
  | cons k rest ih =>
    have hk := h k (List.mem_cons_self _ _)
    unfold alHas at hk
    obtain ⟨e, he⟩ := Option.isSome_iff_exists.mp hk
    obtain ⟨es, hes⟩ := ih (fun k' hk' => h k' (List.mem_cons_of_mem _ hk'))
    refine ⟨e :: es, ?_⟩
    unfold resolveKeys
    rw [he, hes]
    rfl

theorem resolveKeys_all_has (m : List (Str × ShortcutEntry)) (ks : List Str) (es : List ShortcutEntry)
    (h : resolveKeys m ks = some es) : ∀ k ∈ ks, alHas m k = true := by
  induction ks generalizing es with
  | nil => intro k hk; simp at hk
  | cons k rest ih =>
    intro k' hk'
    unfold resolveKeys at h
    cases hfind : alFind m k with
    | none => rw [hfind] at h; simp at h
    | some e =>
      rw [hfind] at h
      cases hrest : resolveKeys m rest with
      | none => rw [hrest] at h; simp at h
      | some es' =>
        rcases List.mem_cons.mp hk' with rfl | hmem
        · unfold alHas; rw [hfind]; rfl
        · exact ih es' hrest k' hmem

theorem setActiveShortcuts_find (cols : List ShortcutCollection) (cid : Str)
    (entries : List ShortcutEntry) (c₀ : ShortcutCollection)
    (h : cols.find? (fun c => c.id == cid) = some c₀) :
    (setActiveShortcuts cols cid entries).find? (fun c => c.id == cid) =
      some { c₀ with shortcuts := entries } := by
  induction cols with
  | nil => simp at h
  | cons c t ih =>
    by_cases hc : c.id = cid
    · rw [List.find?_cons_of_pos _ (by simp [hc])] at h
      obtain rfl := Option.some.injEq _ _ |>.mp h
      unfold setActiveShortcuts
      rw [if_pos hc]
      exact List.find?_cons_of_pos _ (by simp [hc])
    · rw [List.find?_cons_of_neg _ (by simp [hc])] at h
      unfold setActiveShortcuts
      rw [if_neg hc]
      rw [List.find?_cons_of_neg _ (by simp [hc])]
      exact ih h

theorem setActiveShortcuts_mem_of_ne (cols : List ShortcutCollection) (cid : Str)
    (entries : List ShortcutEntry) (c : ShortcutCollection)
    (hmem : c ∈ setActiveShortcuts cols cid entries) (hne : c.id ≠ cid) :
    c ∈ cols := by
  induction cols with
  | nil => simpa [setActiveShortcuts] using hmem
  | cons c' t ih =>
    unfold setActiveShortcuts at hmem
    by_cases hc : c'.id = cid
    · rw [if_pos hc] at hmem
      rcases List.mem_cons.mp hmem with rfl | hmem'
      · exact absurd hc hne
      · exact List.mem_cons_of_mem _ hmem'
    · rw [if_neg hc] at hmem
      rcases List.mem_cons.mp hmem with rfl | hmem'
      · exact List.mem_cons_self _ _
      · exact List.mem_cons_of_mem _ (ih hmem')

/-- C3: for every key stored in the (active collection's) shortcut map,
`removeShortcut` returns true and strips the entry with that derived key from
EVERY collection's shortcut list (keeping, per collection, exactly the entries
with a different key). -/
theorem removeShortcut_removes_from_all_collections (s : NavSettings) (key : Str)
    (h : alHas (shortcutMap s) key = true) :
    (removeShortcut s key).2 = true ∧
    (∀ c ∈ (removeShortcut s key).1.shortcutCollections, ∀ e ∈ c.shortcuts,
      getShortcutKey e ≠ key) ∧
    List.Forall₂
      (fun c c' => c'.id = c.id ∧
        c'.shortcuts = c.shortcuts.filter (fun e => !(getShortcutKey e == key)))
      s.shortcutCollections (removeShortcut s key).1.shortcutCollections := by
  unfold removeShortcut
  rw [if_pos h]
  refine ⟨rfl, ?_, ?_⟩
  · intro c hc e he
    simp only [List.mem_map] at hc
    obtain ⟨c₀, _, rfl⟩ := hc
    simp only [List.mem_filter] at he
    have := he.2
    simpa using this
  · simp only
    induction s.shortcutCollections with
    | nil => exact List.Forall₂.nil
    | cons c t ih => exact List.Forall₂.cons ⟨rfl, rfl⟩ ih

/-- Concrete input for the C3 witness: two collections sharing a folder
shortcut key, the first one active. -/
def c3State : NavSettings :=
  ⟨[⟨str "default", str "Default", str "i", [ShortcutEntry.folder (str "/Notes")], true⟩,
    ⟨str "b", str "B", str "i",
      [ShortcutEntry.folder (str "/Notes"), ShortcutEntry.note (str "x.md")], false⟩],
    some (str "default")⟩

def c3Key : Str := getShortcutKey (ShortcutEntry.folder (str "/Notes"))

/-- Witness for C3 at a concrete state in which two collections contain the
key. -/
theorem removeShortcut_removes_witness :
    alHas (shortcutMap c3State) c3Key = true ∧
    ((removeShortcut c3State c3Key).2 = true ∧
    (∀ c ∈ (removeShortcut c3State c3Key).1.shortcutCollections, ∀ e ∈ c.shortcuts,
      getShortcutKey e ≠ c3Key) ∧
    List.Forall₂
      (fun c c' => c'.id = c.id ∧
        c'.shortcuts = c.shortcuts.filter (fun e => !(getShortcutKey e == c3Key)))
      c3State.shortcutCollections (removeShortcut c3State c3Key).1.shortcutCollections) :=
  ⟨by decide, removeShortcut_removes_from_all_collections c3State c3Key (by decide)⟩

/-- C10: for a key not stored in the active collection's shortcut map,
`removeShortcut` returns false and leaves the whole state unchanged. -/
theorem removeShortcut_missing_key_noop (s : NavSettings) (key : Str)
    (h : alHas (shortcutMap s) key = false) :
    removeShortcut s key = (s, false) := by
  unfold removeShortcut
  rw [if_neg (by simp [h])]

/-- Concrete input for the C10 witness: the active collection lacks the key
while another collection contains it. -/
def c10State : NavSettings :=
  ⟨[⟨str "default", str "Default", str "i", [ShortcutEntry.note (str "y.md")], true⟩,
    ⟨str "b", str "B", str "i", [ShortcutEntry.folder (str "/Notes")], false⟩],
    some (str "default")⟩

def c10Key : Str := getShortcutKey (ShortcutEntry.folder (str "/Notes"))

/-- Witness for C10: the key lives only in a non-active collection; removal is
rejected and no collection changes. -/
theorem removeShortcut_missing_key_witness :
    alHas (shortcutMap c10State) c10Key = false ∧
    (∃ c ∈ c10State.shortcutCollections, ∃ e ∈ c.shortcuts, getShortcutKey e = c10Key) ∧
    removeShortcut c10State c10Key = (c10State, false) :=
  ⟨by decide, by decide, removeShortcut_missing_key_noop c10State c10Key (by decide)⟩

theorem collectionShortcuts_update (s : NavSettings) (es : List ShortcutEntry)
    (c₀ : ShortcutCollection)
    (hc₀ : s.shortcutCollections.find? (fun c => c.id == activeCollectionId s) = some c₀) :
    collectionShortcuts
      { s with shortcutCollections :=
          setActiveShortcuts s.shortcutCollections (activeCollectionId s) es } = es := by
  have hid : activeCollectionId
      ({ s with shortcutCollections :=
          setActiveShortcuts s.shortcutCollections (activeCollectionId s) es } : NavSettings)
      = activeCollectionId s := rfl
  unfold collectionShortcuts activeCollection
  rw [hid, setActiveShortcuts_find s.shortcutCollections (activeCollectionId s) es c₀ hc₀]
  rfl

/-- C4: assuming the active collection id resolves, `reorderShortcuts`
succeeds exactly when the ordered keys have the same length as the active
collection's shortcuts and every key resolves in its map; on success the
active collection's shortcuts become exactly the entries resolved from the
keys in order (and collections with a different id are untouched); on failure
the state is completely unchanged. -/
theorem reorderShortcuts_spec (s : NavSettings) (keys : List Str)
    (hactive : (s.shortcutCollections.find? (fun c => c.id == activeCollectionId s)).isSome = true) :
    ((reorderShortcuts s keys).2 = true ↔
      (keys.length = (collectionShortcuts s).length ∧ ∀ k ∈ keys, alHas (shortcutMap s) k = true)) ∧
    ((reorderShortcuts s keys).2 = true →
      resolveKeys (shortcutMap s) keys = some (collectionShortcuts (reorderShortcuts s keys).1)) ∧
    ((reorderShortcuts s keys).2 = false → (reorderShortcuts s keys).1 = s) ∧
    ((reorderShortcuts s keys).2 = true →
      ∀ c ∈ (reorderShortcuts s keys).1.shortcutCollections,
        c.id ≠ activeCollectionId s → c ∈ s.shortcutCollections) := by
  obtain ⟨c₀, hc₀⟩ := Option.isSome_iff_exists.mp hactive
  by_cases hlen : keys.length = (collectionShortcuts s).length
  · cases hres : resolveKeys (shortcutMap s) keys with
    | none =>
      have hfail : reorderShortcuts s keys = (s, false) := by
        unfold reorderShortcuts
        rw [if_neg (by omega), hres]
      rw [hfail]
      refine ⟨?_, ?_, ?_, ?_⟩
      · refine iff_of_false (by simp) ?_
        rintro ⟨_, hall⟩
        obtain ⟨es, hes⟩ := resolveKeys_eq_some_of_all_has _ _ hall
        rw [hres] at hes
        exact Option.noConfusion hes
      · intro h; exact absurd h (by simp)
      · intro _; rfl
      · intro h; exact absurd h (by simp)
    | some es =>
      have hsucc : reorderShortcuts s keys =
          ({ s with shortcutCollections :=
              setActiveShortcuts s.shortcutCollections (activeCollectionId s) es }, true) := by
        unfold reorderShortcuts
        rw [if_neg (by omega), hres]
      rw [hsucc]
      refine ⟨?_, ?_, ?_, ?_⟩
      · exact iff_of_true rfl ⟨hlen, resolveKeys_all_has _ _ _ hres⟩
      · intro _
        exact congrArg some (collectionShortcuts_update s es c₀ hc₀).symm
      · intro h; exact absurd h (by simp)
      · intro _ c hc hne
        exact setActiveShortcuts_mem_of_ne _ _ _ c hc hne
  · have hfail : reorderShortcuts s keys = (s, false) := by
      unfold reorderShortcuts
      rw [if_pos (by omega)]
    rw [hfail]
    refine ⟨?_, ?_, ?_, ?_⟩
    · refine iff_of_false (by simp) ?_
      rintro ⟨h, _⟩
      exact hlen h
    · intro h; exact absurd h (by simp)
    · intro _; rfl
    · intro h; exact absurd h (by simp)

/-- Concrete input for the C4 witness: the active collection holds two
shortcuts; the reorder call omits one of them. -/
def c4State : NavSettings :=
  ⟨[⟨str "default", str "Default", str "i",
      [ShortcutEntry.folder (str "/Notes"), ShortcutEntry.note (str "x.md")], true⟩],
    some (str "default")⟩

def c4Keys : List Str := [getShortcutKey (ShortcutEntry.folder (str "/Notes"))]

/-- Witness for C4: passing a key list that omits one existing key leaves the
collection order completely unchanged and reports failure. -/
theorem reorderShortcuts_witness :
    (c4State.shortcutCollections.find? (fun c => c.id == activeCollectionId c4State)).isSome = true ∧
    (((reorderShortcuts c4State c4Keys).2 = true ↔
      (c4Keys.length = (collectionShortcuts c4State).length ∧
        ∀ k ∈ c4Keys, alHas (shortcutMap c4State) k = true)) ∧
    ((reorderShortcuts c4State c4Keys).2 = true →
      resolveKeys (shortcutMap c4State) c4Keys =
        some (collectionShortcuts (reorderShortcuts c4State c4Keys).1)) ∧
    ((reorderShortcuts c4State c4Keys).2 = false → (reorderShortcuts c4State c4Keys).1 = c4State) ∧
    ((reorderShortcuts c4State c4Keys).2 = true →
      ∀ c ∈ (reorderShortcuts c4State c4Keys).1.shortcutCollections,
        c.id ≠ activeCollectionId c4State → c ∈ c4State.shortcutCollections)) ∧
    (reorderShortcuts c4State c4Keys).2 = false :=
  ⟨by decide, reorderShortcuts_spec c4State c4Keys (by decide), by decide⟩

-- ### Hidden-tag filter lemmas

theorem filterChildrenList_cons_some (m : HiddenTagMatcher) (vis : List Str) (d : Nat)
    (k : Str) (c : ITagTreeNode) (rest : List (Str × ITagTreeNode)) (c' : ITagTreeNode)
    (h : shouldIncludeNode m vis d c = some c') :
    filterChildrenList m vis d ((k, c) :: rest) =
      (k, c') :: filterChildrenList m vis d rest := by
  simp only [filterChildrenList, h]

theorem filterChildrenList_cons_none (m : HiddenTagMatcher) (vis : List Str) (d : Nat)
    (k : Str) (c : ITagTreeNode) (rest : List (Str × ITagTreeNode))
    (h : shouldIncludeNode m vis d c = none) :
    filterChildrenList m vis d ((k, c) :: rest) = filterChildrenList m vis d rest := by
  simp only [filterChildrenList, h]

theorem excludeRootsList_cons_some (m : HiddenTagMatcher) (k : Str) (n : ITagTreeNode)
    (rest : List (Str × ITagTreeNode)) (n' : ITagTreeNode)
    (h : shouldIncludeNode m [] 0 n = some n') :
    excludeRootsList m ((k, n) :: rest) = (k, n') :: excludeRootsList m rest := by
  simp only [excludeRootsList, h]

theorem excludeRootsList_cons_none (m : HiddenTagMatcher) (k : Str) (n : ITagTreeNode)
    (rest : List (Str × ITagTreeNode))
    (h : shouldIncludeNode m [] 0 n = none) :
    excludeRootsList m ((k, n) :: rest) = excludeRootsList m rest := by
  simp only [excludeRootsList, h]

theorem subNodesList_nil : subNodesList [] = [] := by
  simp [subNodesList]

theorem subNodesList_cons (k : Str) (c : ITagTreeNode) (rest : List (Str × ITagTreeNode)) :
    subNodesList ((k, c) :: rest) = subNodes c ++ subNodesList rest := by
  simp [subNodesList]

theorem shouldIncludeNode_none_of_match (m : HiddenTagMatcher) (vis : List Str) (d : Nat)
    (n : ITagTreeNode) (h : matchesHiddenTagPattern n.path n.name m = true) :
    shouldIncludeNode m vis d n = none := by
  cases n with
  | node nm p dp cs files =>
    simp only [ITagTreeNode.path, ITagTreeNode.name] at h
    unfold shouldIncludeNode
    split_ifs <;> rfl

mutual

theorem filteredNode_ok (m : HiddenTagMatcher) (n : ITagTreeNode) :
    ∀ vis d n', shouldIncludeNode m vis d n = some n' →
      ∀ x ∈ subNodes n', matchesHiddenTagPattern x.path x.name m = false ∧
        (x.children ≠ [] ∨ x.notesWithTag ≠ ∅) := by
  cases n with
  | node nm p dp cs files =>
    intro vis d n' h x hx
    unfold shouldIncludeNode at h
    split_ifs at h with h1 h2 h3 h4
    obtain rfl := (Option.some.injEq _ _).mp h
    unfold subNodes at hx
    rcases List.mem_cons.mp hx with rfl | hx'
    · constructor
      · simp only [ITagTreeNode.path, ITagTreeNode.name]
        exact Bool.not_eq_true _ |>.mp h3
      · simp only [ITagTreeNode.children, ITagTreeNode.notesWithTag]
        rcases Decidable.not_and_iff_or_not.mp h4 with hfc | hfs
        · exact Or.inl (by simpa [List.isEmpty_iff] using hfc)
        · exact Or.inr hfs
    · exact filteredList_ok m cs (p :: vis) (d + 1) x hx'

theorem filteredList_ok (m : HiddenTagMatcher) (cs : List (Str × ITagTreeNode)) :
    ∀ vis d, ∀ x ∈ subNodesList (filterChildrenList m vis d cs),
      matchesHiddenTagPattern x.path x.name m = false ∧
        (x.children ≠ [] ∨ x.notesWithTag ≠ ∅) := by
  cases cs with
  | nil =>
    intro vis d x hx
    simp [filterChildrenList, subNodesList] at hx
  | cons kc rest =>
    intro vis d x hx
    obtain ⟨k, c⟩ := kc
    cases hinc : shouldIncludeNode m vis d c with
    | some c' =>
      rw [filterChildrenList_cons_some m vis d k c rest c' hinc, subNodesList_cons] at hx
      rcases List.mem_append.mp hx with hx' | hx'
      · exact filteredNode_ok m c vis d c' hinc x hx'
      · exact filteredList_ok m rest vis d x hx'
    | none =>
      rw [filterChildrenList_cons_none m vis d k c rest hinc] at hx
      exact filteredList_ok m rest vis d x hx

end

/-- The concrete tree of the C5 scenario: a single root `x` with no notes of
its own and one child `x/y` holding one note. -/
def c5Tree : List (Str × ITagTreeNode) :=
  [(str "x", ITagTreeNode.node (str "x") (str "x") (str "x")
      [(str "x/y", ITagTreeNode.node (str "y") (str "x/y") (str "x/y") []
          (insert (str "f.md") ∅))] ∅)]

/-- A matcher whose single rule excludes exactly the tag `x/y`. -/
def c5Matcher : HiddenTagMatcher := ⟨[str "x/y"], [], []⟩

/-- C5: with at least one rule, a node matching any rule is excluded together
with its entire subtree (`shouldIncludeNode` answers `none` without looking at
the descendants); every node surviving in the output matches no rule and has a
surviving child or a nonempty own file set; and in the `{x/y}` scenario with
`y` excluded and `x` without notes, `x` disappears from the result. -/
theorem excludeFromTagTree_spec (tree : List (Str × ITagTreeNode)) (m : HiddenTagMatcher)
    (hrules : ¬ (m.prefixes.isEmpty ∧ m.startsWithNames.isEmpty ∧ m.endsWithNames.isEmpty)) :
    (∀ vis d n, matchesHiddenTagPattern n.path n.name m = true →
      shouldIncludeNode m vis d n = none) ∧
    (∀ x ∈ subNodesList (excludeFromTagTree tree m),
      matchesHiddenTagPattern x.path x.name m = false ∧
        (x.children ≠ [] ∨ x.notesWithTag ≠ ∅)) ∧
    excludeFromTagTree c5Tree c5Matcher = [] := by
  refine ⟨shouldIncludeNode_none_of_match m, ?_, by rfl⟩
  intro x hx
  unfold excludeFromTagTree at hx
  rw [if_neg hrules] at hx
  induction tree with
  | nil => simp [excludeRootsList, subNodesList] at hx
  | cons kv rest ih =>
    obtain ⟨k, n⟩ := kv
    cases hinc : shouldIncludeNode m [] 0 n with
    | some n' =>
      rw [excludeRootsList_cons_some m k n rest n' hinc, subNodesList_cons] at hx
      rcases List.mem_append.mp hx with hx' | hx'
      · exact filteredNode_ok m n [] 0 n' hinc x hx'
      · exact ih hx'
    | none =>
      rw [excludeRootsList_cons_none m k n rest hinc] at hx
      exact ih hx

/-- Witness for C5 at the concrete scenario input. -/
theorem excludeFromTagTree_spec_witness :
    (¬ (c5Matcher.prefixes.isEmpty ∧ c5Matcher.startsWithNames.isEmpty ∧
        c5Matcher.endsWithNames.isEmpty)) ∧
    ((∀ vis d n, matchesHiddenTagPattern n.path n.name c5Matcher = true →
      shouldIncludeNode c5Matcher vis d n = none) ∧
    (∀ x ∈ subNodesList (excludeFromTagTree c5Tree c5Matcher),
      matchesHiddenTagPattern x.path x.name c5Matcher = false ∧
        (x.children ≠ [] ∨ x.notesWithTag ≠ ∅)) ∧
    excludeFromTagTree c5Tree c5Matcher = []) :=
  ⟨by decide, excludeFromTagTree_spec c5Tree c5Matcher (by decide)⟩

mutual

theorem shouldIncludeNode_idem (m : HiddenTagMatcher) (n : ITagTreeNode) :
    ∀ vis d n', shouldIncludeNode m vis d n = some n' →
      shouldIncludeNode m vis d n' = some n' := by
  cases n with
  | node nm p dp cs files =>
    intro vis d n' h
    unfold shouldIncludeNode at h
    split_ifs at h with h1 h2 h3 h4
    obtain rfl := (Option.some.injEq _ _).mp h
    unfold shouldIncludeNode
    rw [if_neg h1, if_neg h2, if_neg h3,
      filterChildrenList_idem m cs (p :: vis) (d + 1), if_neg h4]

theorem filterChildrenList_idem (m : HiddenTagMatcher) (cs : List (Str × ITagTreeNode)) :
    ∀ vis d, filterChildrenList m vis d (filterChildrenList m vis d cs) =
      filterChildrenList m vis d cs := by
  cases cs with
  | nil => intro vis d; rfl
  | cons kc rest =>
    intro vis d
    obtain ⟨k, c⟩ := kc
    cases hinc : shouldIncludeNode m vis d c with
    | some c' =>
      have hidem := shouldIncludeNode_idem m c vis d c' hinc
      rw [filterChildrenList_cons_some m vis d k c rest c' hinc,
        filterChildrenList_cons_some m vis d k c' (filterChildrenList m vis d rest) c' hidem,
        filterChildrenList_idem m rest vis d]
    | none =>
      rw [filterChildrenList_cons_none m vis d k c rest hinc]
      exact filterChildrenList_idem m rest vis d

end

/-- C6: with no rules `excludeFromTagTree` returns the input tree itself, and
for every matcher filtering an already-filtered tree returns it unchanged. -/
theorem excludeFromTagTree_idem (tree : List (Str × ITagTreeNode)) (m : HiddenTagMatcher) :
    (m.prefixes = [] → m.startsWithNames = [] → m.endsWithNames = [] →
      excludeFromTagTree tree m = tree) ∧
    excludeFromTagTree (excludeFromTagTree tree m) m = excludeFromTagTree tree m := by
  constructor
  · intro h1 h2 h3
    unfold excludeFromTagTree
    rw [if_pos (by simp [h1, h2, h3])]
  · by_cases hrules : m.prefixes.isEmpty ∧ m.startsWithNames.isEmpty ∧ m.endsWithNames.isEmpty
    · unfold excludeFromTagTree
      rw [if_pos hrules, if_pos hrules]
    · unfold excludeFromTagTree
      rw [if_neg hrules, if_neg hrules]
      induction tree with
      | nil => rfl
      | cons kv rest ih =>
        obtain ⟨k, n⟩ := kv
        cases hinc : shouldIncludeNode m [] 0 n with
        | some n' =>
          rw [excludeRootsList_cons_some m k n rest n' hinc,
            excludeRootsList_cons_some m k n' (excludeRootsList m rest) n'
              (shouldIncludeNode_idem m n [] 0 n' hinc),
            ih]
        | none =>
          rw [excludeRootsList_cons_none m k n rest hinc]
          exact ih

/-- Witness for C6: applied at the scenario tree, with the empty matcher for
the first part and the scenario matcher for the second. -/
theorem excludeFromTagTree_idem_witness :
    excludeFromTagTree c5Tree ⟨[], [], []⟩ = c5Tree ∧
    excludeFromTagTree (excludeFromTagTree c5Tree c5Matcher) c5Matcher =
      excludeFromTagTree c5Tree c5Matcher :=
  ⟨(excludeFromTagTree_idem c5Tree ⟨[], [], []⟩).1 rfl rfl rfl,
    (excludeFromTagTree_idem c5Tree c5Matcher).2⟩

-- ### C8: the canonicalization step and its (non-)idempotence

/-- The canonicalization step of the builder's per-tag processing: strip a
leading hash, strip boundary slashes (lines 159-164 of the builder), then
normalize. -/
def canonicalizeTag (s : Str) : Str := normalizeTagPathValue (canonicalTagPath s)

theorem dropTrailSlash_head?_eq (z : Str) (c : Char)
    (h : (dropTrailSlash z).head? = some c) : z.head? = some c := by
  have hsfx : dropLeadSlash z.reverse <:+ z.reverse := List.dropWhile_suffix _
  obtain ⟨t, ht⟩ := hsfx
  have h2 : (dropLeadSlash z.reverse).reverse ++ t.reverse = z := by
    rw [← List.reverse_append, ht, List.reverse_reverse]
  have hz : z = dropTrailSlash z ++ t.reverse := h2.symm
  rw [hz, List.head?_append, h]
  rfl

theorem trimSlashes_head (s : Str) (c : Char) (h : (trimSlashes s).head? = some c) :
    ¬ c = '/' := by
  unfold trimSlashes at h
  exact dropLeadSlash_head s c (dropTrailSlash_head?_eq _ c h)

theorem trimSlashes_last (s : Str) (c : Char) (h : (trimSlashes s).getLast? = some c) :
    ¬ c = '/' := by
  unfold trimSlashes at h
  exact dropTrailSlash_last _ c h

theorem trimSlashes_idem (s : Str) : trimSlashes (trimSlashes s) = trimSlashes s := by
  conv_lhs => rw [trimSlashes]
  rw [dropLeadSlash_eq_self _ (trimSlashes_head s), dropTrailSlash_eq_self _ (trimSlashes_last s)]

theorem dropLeadSlash_strLower (s : Str) :
    dropLeadSlash (strLower s) = strLower (dropLeadSlash s) := by
  have hp : ((fun c => decide (c = '/')) ∘ charLower) = (fun c : Char => decide (c = '/')) := by
    funext c
    simp only [Function.comp_apply]
    rw [decide_eq_decide]
    exact charLower_slash_iff c
  unfold dropLeadSlash strLower
  rw [List.dropWhile_map, hp]

theorem dropTrailSlash_strLower (s : Str) :
    dropTrailSlash (strLower s) = strLower (dropTrailSlash s) := by
  unfold dropTrailSlash
  rw [show (strLower s).reverse = strLower s.reverse from (List.map_reverse _ _).symm,
    dropLeadSlash_strLower]
  unfold strLower
  rw [List.map_reverse]

theorem trimSlashes_strLower (s : Str) :
    trimSlashes (strLower s) = strLower (trimSlashes s) := by
  unfold trimSlashes
  rw [dropLeadSlash_strLower, dropTrailSlash_strLower]

theorem stripHash_eq_self (s : Str) (h : s.head? ≠ some '#') : stripHash s = s := by
  cases s with
  | nil => rfl
  | cons a t =>
    by_cases ha : a = '#'
    · subst ha
      exact absurd rfl h
    · unfold stripHash
      split
      · next heq =>
        rw [List.cons.injEq] at heq
        exact absurd heq.1 ha
      · rfl

/-- The C8 counterexample input: a tag with several leading hashes. -/
def c8Bad : Str := str "###a"

/-- Counterexample for C8 as stated: the canonicalization step (strip one
leading hash, strip boundary slashes, normalize) is NOT idempotent on every
input --- on `"###a"` the first application leaves `"#a"` and the second
strips further to `"a"`. -/
theorem canonicalizeTag_not_idem :
    canonicalizeTag (canonicalizeTag c8Bad) ≠ canonicalizeTag c8Bad ∧
    canonicalizeTag c8Bad = str "#a" ∧
    canonicalizeTag (canonicalizeTag c8Bad) = str "a" := by
  refine ⟨?_, by decide, by decide⟩
  decide

/-- C8 (amended): the canonicalization step is idempotent on every input whose
canonicalized form does not begin with `'#'` --- in particular on
`"#Foo/Bar/"`, `"foo//bar"` and `""`; applying it to such an
already-canonicalized path returns the path unchanged. -/
theorem canonicalizeTag_idem (s : Str) (h : (canonicalizeTag s).head? ≠ some '#') :
    canonicalizeTag (canonicalizeTag s) = canonicalizeTag s := by
  have hc : canonicalizeTag s = strLower (trimSlashes (stripHash (canonicalTagPath s))) := rfl
  have htrim : trimSlashes (canonicalizeTag s) = canonicalizeTag s := by
    rw [hc, trimSlashes_strLower, trimSlashes_idem]
  have hlower : strLower (canonicalizeTag s) = canonicalizeTag s := by
    rw [hc, strLower_idem]
  show normalizeTagPathValue (canonicalTagPath (canonicalizeTag s)) = canonicalizeTag s
  unfold canonicalTagPath normalizeTagPathValue
  rw [stripHash_eq_self _ h, htrim, stripHash_eq_self _ h, htrim, hlower]

/-- Witness for the amended C8 at the inputs named by the claim. -/
theorem canonicalizeTag_idem_witness :
    ((canonicalizeTag (str "#Foo/Bar/")).head? ≠ some '#' ∧
      canonicalizeTag (canonicalizeTag (str "#Foo/Bar/")) = canonicalizeTag (str "#Foo/Bar/")) ∧
    ((canonicalizeTag (str "foo//bar")).head? ≠ some '#' ∧
      canonicalizeTag (canonicalizeTag (str "foo//bar")) = canonicalizeTag (str "foo//bar")) ∧
    ((canonicalizeTag (str "")).head? ≠ some '#' ∧
      canonicalizeTag (canonicalizeTag (str "")) = canonicalizeTag (str "")) :=
  ⟨⟨by decide, canonicalizeTag_idem (str "#Foo/Bar/") (by decide)⟩,
    ⟨by decide, canonicalizeTag_idem (str "foo//bar") (by decide)⟩,
    ⟨by decide, canonicalizeTag_idem (str "") (by decide)⟩⟩

-- ### C9: the hard caps never throw and return partial results

/-- Everything the scan accumulates except the file counter. -/
def scanCore (st : ScanState) :
    Nat × List (Str × Str) × List Str × List (Str × Finset Str) × List (Str × TagNode) :=
  (st.untagged, st.caseMap, st.allTagsSet, st.tagFiles, st.hiddenRootTags)

theorem scanTag_filesProcessed (path : Str) (st : ScanState) (tag : Str) :
    (scanTag path st tag).filesProcessed = st.filesProcessed := by
  simp only [scanTag]
  split <;> rfl

theorem foldScanTag_filesProcessed (path : Str) (l : List Str) :
    ∀ st : ScanState, (l.foldl (scanTag path) st).filesProcessed = st.filesProcessed := by
  induction l with
  | nil => intro st; rfl
  | cons t rest ih =>
    intro st
    rw [List.foldl_cons, ih, scanTag_filesProcessed]

theorem scanFile_filesProcessed (ex : Option (List Str)) (he : Bool)
    (incl : Option (List Str)) (st : ScanState) (path : Str) (tags? : Option (List Str)) :
    (scanFile ex he incl st path tags?).filesProcessed = st.filesProcessed := by
  simp only [scanFile]
  repeat' split
  all_goals first | rfl | exact foldScanTag_filesProcessed _ _ _

theorem scanFiles_core_take (ex : Option (List Str)) (he : Bool) (incl : Option (List Str)) :
    ∀ (files : List (Str × Option (List Str))) (st : ScanState),
      st.filesProcessed ≤ 100000 →
      scanCore (scanFiles ex he incl st files) =
        scanCore (scanFiles ex he incl st (files.take (100000 - st.filesProcessed))) := by
  intro files
  induction files with
  | nil =>
    intro st _
    rw [List.take_nil]
  | cons f rest ih =>
    intro st hle
    obtain ⟨p, tg⟩ := f
    by_cases hc : st.filesProcessed = 100000
    · have h0 : 100000 - st.filesProcessed = 0 := by omega
      rw [h0, List.take_zero]
      show scanCore (scanFiles ex he incl st ((p, tg) :: rest)) = scanCore st
      unfold scanFiles
      rw [if_pos (by simp only; omega)]
      rfl
    · have hk : 100000 - st.filesProcessed = (100000 - st.filesProcessed - 1) + 1 := by omega
      rw [hk, List.take_succ_cons]
      show scanCore (scanFiles ex he incl st ((p, tg) :: rest)) =
        scanCore (scanFiles ex he incl st
          ((p, tg) :: rest.take (100000 - st.filesProcessed - 1)))
      unfold scanFiles
      rw [if_neg (by simp only; omega), if_neg (by simp only; omega)]
      have hcount : (scanFile ex he incl
          { st with filesProcessed := st.filesProcessed + 1 } p tg).filesProcessed =
          st.filesProcessed + 1 := scanFile_filesProcessed _ _ _ _ _ _
      have hih := ih (scanFile ex he incl { st with filesProcessed := st.filesProcessed + 1 } p tg)
        (by rw [hcount]; omega)
      rw [hih, hcount]
      have harith : 100000 - (st.filesProcessed + 1) = 100000 - st.filesProcessed - 1 := by omega
      rw [harith]

theorem filter_contains_nil (l : List (Str × TagNode)) :
    l.filter (fun kv => !(([] : List Str).contains kv.1)) = l := by
  apply List.filter_eq_self.mpr
  intro kv _
  rfl

/-- C9: `buildTagTreeFromDatabase` is a total function (the embedding never
throws); beyond the 100000-file hard cap it returns exactly the build of the
first 100000 files, and when the collected tag list exceeds the 100000-tag
hard cap the assembler yields an empty tree while the scan's accumulated
untagged count and hidden root tags are still returned. -/
theorem buildTagTreeFromDatabase_caps (files : List (Str × Option (List Str)))
    (ex incl : Option (List Str)) :
    buildTagTreeFromDatabase files ex incl =
      buildTagTreeFromDatabase (files.take 100000) ex incl ∧
    ((buildTagTreeFromDatabase files ex incl).allNodes,
      (buildTagTreeFromDatabase files ex incl).tagTree) =
      (if 100000 < (scanDatabase files ex incl).allTagsSet.length then ([], [])
        else buildTreeFromList (scanDatabase files ex incl).tagFiles
          (scanDatabase files ex incl).allTagsSet) ∧
    (buildTagTreeFromDatabase files ex incl).untagged =
      (scanDatabase files ex incl).untagged ∧
    (buildTagTreeFromDatabase files ex incl).hiddenRootTags =
      (if 100000 < (scanDatabase files ex incl).allTagsSet.length then
        (scanDatabase files ex incl).hiddenRootTags
      else if (scanDatabase files ex incl).hiddenRootTags.isEmpty then
        (scanDatabase files ex incl).hiddenRootTags
      else (scanDatabase files ex incl).hiddenRootTags.filter
        (fun kv => !((buildTreeFromList (scanDatabase files ex incl).tagFiles
          (scanDatabase files ex incl).allTagsSet).2.contains kv.1))) := by
  refine ⟨?_, ?_, rfl, ?_⟩
  · have hcore : scanCore (scanDatabase files ex incl) =
        scanCore (scanDatabase (files.take 100000) ex incl) := by
      unfold scanDatabase
      have := scanFiles_core_take
        (if (match ex with | some ps => !ps.isEmpty | none => false) then ex else none)
        (match ex with | some ps => !ps.isEmpty | none => false) incl files
        ⟨0, 0, [], [], [], []⟩ (by simp)
      simpa using this
    have hunt : (scanDatabase files ex incl).untagged =
        (scanDatabase (files.take 100000) ex incl).untagged :=
      congrArg (fun x => x.1) hcore
    have htags : (scanDatabase files ex incl).allTagsSet =
        (scanDatabase (files.take 100000) ex incl).allTagsSet :=
      congrArg (fun x => x.2.2.1) hcore
    have htf : (scanDatabase files ex incl).tagFiles =
        (scanDatabase (files.take 100000) ex incl).tagFiles :=
      congrArg (fun x => x.2.2.2.1) hcore
    have hhid : (scanDatabase files ex incl).hiddenRootTags =
        (scanDatabase (files.take 100000) ex incl).hiddenRootTags :=
      congrArg (fun x => x.2.2.2.2) hcore
    simp only [buildTagTreeFromDatabase]
    rw [htags, htf, hhid, hunt]
  · simp only [buildTagTreeFromDatabase]
    by_cases hlen : 100000 < (scanDatabase files ex incl).allTagsSet.length
    · rw [if_pos hlen]
      have hempty : buildTreeFromList (scanDatabase files ex incl).tagFiles
          (scanDatabase files ex incl).allTagsSet = ([], []) := by
        unfold buildTreeFromList
        rw [if_pos (by omega)]
      rw [hempty]
    · rw [if_neg hlen]
  · simp only [buildTagTreeFromDatabase]
    by_cases hlen : 100000 < (scanDatabase files ex incl).allTagsSet.length
    · rw [if_pos hlen]
      have hempty : buildTreeFromList (scanDatabase files ex incl).tagFiles
          (scanDatabase files ex incl).allTagsSet = ([], []) := by
        unfold buildTreeFromList
        rw [if_pos (by omega)]
      rw [hempty]
      by_cases hhe : (scanDatabase files ex incl).hiddenRootTags.isEmpty
      · rw [if_pos hhe]
      · rw [if_neg hhe]
        exact filter_contains_nil _
    · rw [if_neg hlen]

-- ### Association list lemmas

theorem alFind_alSet_self {β : Type} (m : List (Str × β)) (k : Str) (v : β) :
    alFind (alSet m k v) k = some v := by
  induction m with
  | nil => simp [alSet, alFind]
  | cons kv t ih =>
    obtain ⟨k', v'⟩ := kv
    by_cases hk : k' = k
    · simp [alSet, alFind, hk]
    · simp only [alSet, alFind, if_neg hk]
      exact ih

theorem alFind_alSet_ne {β : Type} (m : List (Str × β)) (k k' : Str) (v : β)
    (h : ¬ k = k') : alFind (alSet m k v) k' = alFind m k' := by
  induction m with
  | nil => simp [alSet, alFind, h]
  | cons kv t ih =>
    obtain ⟨k₀, v₀⟩ := kv
    by_cases hk : k₀ = k
    · subst hk
      simp [alSet, alFind, h]
    · simp only [alSet, alFind, if_neg hk]
      by_cases hk' : k₀ = k'
      · simp [hk']
      · simp only [if_neg hk']
        exact ih

theorem alHas_alSet_mono {β : Type} (m : List (Str × β)) (k k' : Str) (v : β)
    (h : alHas m k' = true) : alHas (alSet m k v) k' = true := by
  unfold alHas at h ⊢
  by_cases hk : k = k'
  · subst hk
    rw [alFind_alSet_self]
    rfl
  · rw [alFind_alSet_ne m k k' v hk]
    exact h

-- ### splitSlash / joinSlash lemmas

theorem splitSlash_ne_nil (s : Str) : splitSlash s ≠ [] := by
  cases s with
  | nil => simp [splitSlash]
  | cons c t =>
    unfold splitSlash
    by_cases hc : c = '/'
    · rw [if_pos hc]
      simp
    · rw [if_neg hc]
      cases splitSlash t <;> simp

theorem joinSlash_cons (p : Str) (q : Str) (ps : List Str) :
    joinSlash (p :: q :: ps) = p ++ '/' :: joinSlash (q :: ps) := rfl

theorem join_split (s : Str) : joinSlash (splitSlash s) = s := by
  induction s with
  | nil => rfl
  | cons c t ih =>
    unfold splitSlash
    by_cases hc : c = '/'
    · rw [if_pos hc]
      cases hsp : splitSlash t with
      | nil => exact absurd hsp (splitSlash_ne_nil t)
      | cons p ps =>
        rw [joinSlash_cons, hc]
        rw [hsp] at ih
        rw [ih]
        rfl
    · rw [if_neg hc]
      cases hsp : splitSlash t with
      | nil => exact absurd hsp (splitSlash_ne_nil t)
      | cons p ps =>
        rw [hsp] at ih
        cases ps with
        | nil =>
          show (c :: p) = c :: t
          rw [show joinSlash [p] = p from rfl] at ih
          rw [ih]
        | cons q ps' =>
          rw [joinSlash_cons]
          rw [joinSlash_cons] at ih
          show c :: (p ++ '/' :: joinSlash (q :: ps')) = c :: t
          rw [ih]

theorem splitSlash_no_slash (s : Str) : ∀ p ∈ splitSlash s, ∀ c ∈ p, ¬ c = '/' := by
  induction s with
  | nil =>
    intro p hp c hc
    simp [splitSlash] at hp
    subst hp
    simp at hc
  | cons a t ih =>
    intro p hp c hc
    unfold splitSlash at hp
    by_cases ha : a = '/'
    · rw [if_pos ha] at hp
      rcases List.mem_cons.mp hp with rfl | hp'
      · simp at hc
      · exact ih p hp' c hc
    · rw [if_neg ha] at hp
      cases hsp : splitSlash t with
      | nil => exact absurd hsp (splitSlash_ne_nil t)
      | cons q ps =>
        rw [hsp] at hp
        rcases List.mem_cons.mp hp with rfl | hp'
        · rcases List.mem_cons.mp hc with rfl | hc'
          · exact ha
          · exact ih q (by rw [hsp]; exact List.mem_cons_self _ _) c hc'
        · exact ih p (by rw [hsp]; exact List.mem_cons_of_mem _ hp') c hc

theorem joinSlash_cons_ne (a : Str) (l : List Str) (h : l ≠ []) :
    joinSlash (a :: l) = a ++ '/' :: joinSlash l := by
  cases l with
  | nil => exact absurd rfl h
  | cons q ps => rfl

theorem joinSlash_append_last (l : List Str) (x : Str) :
    joinSlash (l ++ [x]) = if l = [] then x else joinSlash l ++ '/' :: x := by
  induction l with
  | nil => rfl
  | cons a t ih =>
    rw [if_neg (by simp)]
    rw [List.cons_append, joinSlash_cons_ne a (t ++ [x]) (by simp)]
    cases t with
    | nil => rfl
    | cons b t' =>
      rw [ih, if_neg (by simp), joinSlash_cons_ne a (b :: t') (by simp)]
      simp

theorem take_succ_of_drop {α : Type} (l : List α) (i : Nat) (x : α) (rest : List α)
    (h : l.drop i = x :: rest) : l.take (i + 1) = l.take i ++ [x] := by
  have hx : l[i]? = some x := by
    rw [← List.head?_drop, h]
    rfl
  rw [List.take_succ, hx]
  rfl

theorem take_eq_nil_iff_of_drop {α : Type} (l : List α) (i : Nat) (x : α) (rest : List α)
    (h : l.drop i = x :: rest) : l.take i = [] ↔ i = 0 := by
  constructor
  · intro ht
    rcases List.take_eq_nil_iff.mp ht with h0 | hnil
    · exact h0
    · subst hnil
      simp at h
  · intro h0
    subst h0
    rfl

theorem joinSlash_take_succ (parts : List Str) (i : Nat) (part : Str) (rest : List Str)
    (h : parts.drop i = part :: rest) :
    joinSlash (parts.take (i + 1)) =
      if i = 0 then part else joinSlash (parts.take i) ++ '/' :: part := by
  rw [take_succ_of_drop parts i part rest h, joinSlash_append_last]
  by_cases h0 : i = 0
  · rw [if_pos ((take_eq_nil_iff_of_drop parts i part rest h).mpr h0), if_pos h0]
  · rw [if_neg (fun hc => h0 ((take_eq_nil_iff_of_drop parts i part rest h).mp hc)),
      if_neg h0]

-- ### C2: file sets are attached only at exact tag paths

/-- Invariant of the assembler: every node holding a nonempty file set got it
from some full tag path in the list, i.e. its own path is an exact tag. -/
def FilesInv (tagFiles : List (Str × Finset Str)) (tagPaths : List Str)
    (env : List (Str × TagNode)) : Prop :=
  ∀ k n, alFind env k = some n → n.notesWithTag ≠ ∅ →
    ∃ t ∈ tagPaths, normalizeTagPathValue t = k ∧
      alFind tagFiles t = some n.notesWithTag

theorem stepCreate_filesInv (tagFiles : List (Str × Finset Str)) (tagPaths : List Str)
    (env : List (Str × TagNode)) (roots : List Str) (key part currentPath : Str)
    (isRoot : Bool) (hInv : FilesInv tagFiles tagPaths env) :
    FilesInv tagFiles tagPaths (stepCreate env roots key part currentPath isRoot).1 := by
  unfold stepCreate
  cases hfind : alFind env key with
  | some _ => exact hInv
  | none =>
    intro k n hk hne
    by_cases hkey : key = k
    · subst hkey
      rw [alFind_alSet_self] at hk
      obtain rfl := (Option.some.injEq _ _).mp hk
      exact absurd rfl hne
    · rw [alFind_alSet_ne _ _ _ _ hkey] at hk
      exact hInv k n hk hne

theorem stepAttach_filesInv (tagFiles : List (Str × Finset Str)) (tagPaths : List Str)
    (env : List (Str × TagNode)) (key currentPath : Str) (isLast : Bool)
    (hmem : isLast = true → currentPath ∈ tagPaths ∧ normalizeTagPathValue currentPath = key)
    (hInv : FilesInv tagFiles tagPaths env) :
    FilesInv tagFiles tagPaths (stepAttach tagFiles env key currentPath isLast) := by
  unfold stepAttach
  cases isLast with
  | false => exact hInv
  | true =>
    rw [if_pos rfl]
    cases htf : alFind tagFiles currentPath with
    | none => exact hInv
    | some files =>
      cases hfind : alFind env key with
      | none => exact hInv
      | some node =>
        intro k n hk hne
        by_cases hkey : key = k
        · subst hkey
          rw [alFind_alSet_self] at hk
          obtain rfl := (Option.some.injEq _ _).mp hk
          exact ⟨currentPath, (hmem rfl).1, (hmem rfl).2, htf⟩
        · rw [alFind_alSet_ne _ _ _ _ hkey] at hk
          exact hInv k n hk hne

theorem stepLink_filesInv (tagFiles : List (Str × Finset Str)) (tagPaths : List Str)
    (env : List (Str × TagNode)) (key parentPath : Str)
    (hInv : FilesInv tagFiles tagPaths env) :
    FilesInv tagFiles tagPaths (stepLink env key parentPath) := by
  unfold stepLink
  cases hfind : alFind env parentPath with
  | none => exact hInv
  | some parent =>
    show FilesInv tagFiles tagPaths
      (if key ∈ parent.children then env
        else alSet env parentPath { parent with children := parent.children ++ [key] })
    by_cases hmem : key ∈ parent.children
    · rw [if_pos hmem]
      exact hInv
    · rw [if_neg hmem]
      intro k n hk hne
      by_cases hkey : parentPath = k
      · subst hkey
        rw [alFind_alSet_self] at hk
        obtain rfl := (Option.some.injEq _ _).mp hk
        exact hInv parentPath parent hfind hne
      · rw [alFind_alSet_ne _ _ _ _ hkey] at hk
        exact hInv k n hk hne

theorem drop_succ_of_drop {α : Type} (l : List α) (i : Nat) (x : α) (rest : List α)
    (h : l.drop i = x :: rest) : l.drop (i + 1) = rest := by
  have h1 : (l.drop i).drop 1 = rest := by
    rw [h]
    rfl
  rw [← h1, List.drop_drop]

theorem buildParts_filesInv (tagFiles : List (Str × Finset Str)) (tagPaths : List Str)
    (parts0 : List Str) (hmem : joinSlash parts0 ∈ tagPaths) :
    ∀ (rest : List Str) (i : Nat) (prevPath : Str) (env : List (Str × TagNode))
      (roots : List Str),
      parts0.drop i = rest →
      (i = 0 ∨ prevPath = joinSlash (parts0.take i)) →
      FilesInv tagFiles tagPaths env →
      FilesInv tagFiles tagPaths (buildParts tagFiles parts0 rest i prevPath env roots).1 := by
  intro rest
  induction rest with
  | nil =>
    intro i prevPath env roots _ _ hInv
    exact hInv
  | cons part rest' ih =>
    intro i prevPath env roots hdrop hprev hInv
    have hdrop' : parts0.drop (i + 1) = rest' := drop_succ_of_drop _ _ _ _ hdrop
    simp only [buildParts]
    generalize hcp : (if i = 0 then part else prevPath ++ '/' :: part) = cp
    have hcur : cp = joinSlash (parts0.take (i + 1)) := by
      rw [← hcp, joinSlash_take_succ parts0 i part rest' hdrop]
      by_cases h0 : i = 0
      · rw [if_pos h0, if_pos h0]
      · rcases hprev with h0' | hp
        · exact absurd h0' h0
        · rw [if_neg h0, if_neg h0, hp]
    have hprev' : i + 1 = 0 ∨ cp = joinSlash (parts0.take (i + 1)) := Or.inr hcur
    by_cases hkey : normalizeTagPathValue cp = []
    · rw [if_pos hkey]
      exact ih (i + 1) cp env roots hdrop' hprev' hInv
    · rw [if_neg hkey]
      refine ih (i + 1) cp _ _ hdrop' hprev' ?_
      have hlast : rest'.isEmpty = true →
          cp ∈ tagPaths ∧ normalizeTagPathValue cp = normalizeTagPathValue cp := by
        intro hl
        refine ⟨?_, rfl⟩
        have hrest : rest' = [] := by
          cases rest' with
          | nil => rfl
          | cons a b => simp at hl
        subst hrest
        have hlen : parts0.length ≤ i + 1 := List.drop_eq_nil_iff.mp hdrop'
        rw [hcur, List.take_of_length_le hlen]
        exact hmem
      have h1 := stepCreate_filesInv tagFiles tagPaths env roots
        (normalizeTagPathValue cp) part cp (decide (i = 0)) hInv
      have h2 := stepAttach_filesInv tagFiles tagPaths _
        (normalizeTagPathValue cp) cp rest'.isEmpty hlast h1
      by_cases h0 : i = 0
      · rw [if_pos h0]
        exact h2
      · rw [if_neg h0]
        exact stepLink_filesInv tagFiles tagPaths _ _ _ h2

theorem sortTags_mem (l : List Str) (t : Str) (h : t ∈ sortTags l) : t ∈ l := by
  unfold sortTags at h
  exact (List.perm_insertionSort _ l).mem_iff.mp h

theorem buildTreeFromList_filesInv (tagFiles : List (Str × Finset Str)) (tagPaths : List Str) :
    FilesInv tagFiles tagPaths (buildTreeFromList tagFiles tagPaths).1 := by
  unfold buildTreeFromList
  split
  · intro k n hk
    simp [alFind] at hk
  · have hgen : ∀ (l : List Str) (acc : List (Str × TagNode) × List Str),
        (∀ t ∈ l, t ∈ tagPaths) → FilesInv tagFiles tagPaths acc.1 →
        FilesInv tagFiles tagPaths
          (l.foldl (fun acc tagPath =>
            let parts := splitSlash tagPath
            if parts.length > 100 then acc
            else buildParts tagFiles parts parts 0 [] acc.1 acc.2) acc).1 := by
      intro l
      induction l with
      | nil => intro acc _ hInv; exact hInv
      | cons tagPath rest ih =>
        intro acc hsub hInv
        rw [List.foldl_cons]
        apply ih _ (fun t ht => hsub t (List.mem_cons_of_mem _ ht))
        simp only
        split
        · exact hInv
        · exact buildParts_filesInv tagFiles tagPaths (splitSlash tagPath)
            (by rw [join_split]; exact hsub tagPath (List.mem_cons_self _ _))
            (splitSlash tagPath) 0 [] acc.1 acc.2 rfl (Or.inl rfl) hInv
    apply hgen
    · intro t ht
      exact sortTags_mem tagPaths t ht
    · intro k n hk
      simp [alFind] at hk

/-- The concrete input of the C2 scenario. -/
def c2Files : List (Str × Option (List Str)) :=
  [(str "a.md", some [str "proj/alpha"]), (str "b.md", some [str "proj"])]

/-- C2: in a tree built by `buildTagTreeFromDatabase`, every node with a
nonempty file set sits at the normalized path of a full canonical tag whose
`tagFiles` entry is exactly that set (ancestor nodes created merely as path
prefixes keep an empty set); and on `{a.md: [proj/alpha], b.md: [proj]}` the
root `proj` holds `{b.md}`, its child `proj/alpha` holds `{a.md}`, and
`getTotalNoteCount(proj) = 2`. -/
theorem buildTree_attachment_spec (files : List (Str × Option (List Str)))
    (ex incl : Option (List Str)) :
    (∀ k n, alFind (buildTagTreeFromDatabase files ex incl).allNodes k = some n →
      n.notesWithTag ≠ ∅ →
      ∃ t ∈ (scanDatabase files ex incl).allTagsSet,
        normalizeTagPathValue t = k ∧
        alFind (scanDatabase files ex incl).tagFiles t = some n.notesWithTag) ∧
    alFind (buildTagTreeFromDatabase c2Files none none).allNodes (str "proj") =
      some ⟨str "proj", str "proj", str "proj", [str "proj/alpha"], {str "b.md"}⟩ ∧
    alFind (buildTagTreeFromDatabase c2Files none none).allNodes (str "proj/alpha") =
      some ⟨str "alpha", str "proj/alpha", str "proj/alpha", [], {str "a.md"}⟩ ∧
    (buildTagTreeFromDatabase c2Files none none).tagTree = [str "proj"] ∧
    getTotalNoteCount (buildTagTreeFromDatabase c2Files none none).allNodes (str "proj") = 2 := by
  refine ⟨?_, by decide, by decide, by decide, by decide⟩
  have heq : (buildTagTreeFromDatabase files ex incl).allNodes =
      (buildTreeFromList (scanDatabase files ex incl).tagFiles
        (scanDatabase files ex incl).allTagsSet).1 := rfl
  rw [heq]
  exact buildTreeFromList_filesInv _ _

/-- Witness for C2: the general attachment statement applied to the `proj`
node of the scenario build. -/
theorem buildTree_attachment_witness :
    alFind (buildTagTreeFromDatabase c2Files none none).allNodes (str "proj") =
      some ⟨str "proj", str "proj", str "proj", [str "proj/alpha"], {str "b.md"}⟩ ∧
    (⟨str "proj", str "proj", str "proj", [str "proj/alpha"], {str "b.md"}⟩ : TagNode).notesWithTag ≠ ∅ ∧
    (∃ t ∈ (scanDatabase c2Files none none).allTagsSet,
      normalizeTagPathValue t = str "proj" ∧
      alFind (scanDatabase c2Files none none).tagFiles t =
        some (⟨str "proj", str "proj", str "proj", [str "proj/alpha"],
          {str "b.md"}⟩ : TagNode).notesWithTag) :=
  ⟨by decide, by decide,
    (buildTree_attachment_spec c2Files none none).1 (str "proj") _ (by decide) (by decide)⟩

-- ### C7: case-insensitive merging under the first-seen canonical casing

/-- The tag list the per-tag loop runs on for one file, if the file is
processed at all (mirrors the skip conditions of the per-file loop). -/
def fileContributes (excludedPatterns : Option (List Str)) (includedPaths : Option (List Str))
    (path : Str) (tags? : Option (List Str)) : Option (List Str) :=
  let isExcluded :=
    match excludedPatterns with
    | some ps => isPathInExcludedFolder path ps
    | none => false
  let inclSkip :=
    match includedPaths with
    | some ip => !(ip.contains path)
    | none => false
  if inclSkip then none
  else if isExcluded then none
  else
    match tags? with
    | none => none
    | some [] => none
    | some tags => if tags.length > 1000 then none else some tags

/-- The `(path, raw tag)` occurrences the scan's per-tag loop processes, in
scan order, within the file budget. -/
def processedPairsB (excludedPatterns includedPaths : Option (List Str)) (budget : Nat)
    (files : List (Str × Option (List Str))) : List (Str × Str) :=
  (files.take budget).flatMap (fun f =>
    match fileContributes excludedPatterns includedPaths f.1 f.2 with
    | some tags => tags.map (fun t => (f.1, t))
    | none => [])

/-- The processed occurrences of one `buildTagTreeFromDatabase` run. -/
def dbProcessedPairs (files : List (Str × Option (List Str)))
    (excludedFolderPatterns includedPaths : Option (List Str)) : List (Str × Str) :=
  let hasExcludedFolders :=
    match excludedFolderPatterns with
    | some ps => !ps.isEmpty
    | none => false
  let excludedPatterns := if hasExcludedFolders then excludedFolderPatterns else none
  processedPairsB excludedPatterns includedPaths 100000 files

/-- Folding the per-tag step over a list of occurrences. -/
def scanPairs (st : ScanState) (pairs : List (Str × Str)) : ScanState :=
  pairs.foldl (fun st pt => scanTag pt.1 st pt.2) st

/-- The canonical casing of the first processed occurrence whose normalized
path is `p` --- the spec-side description of the `caseMap`. -/
def firstCanon (pairs : List (Str × Str)) (p : Str) : Option Str :=
  pairs.findSome? (fun ft =>
    if ¬ (canonicalTagPath ft.2 = [] ∨ normalizeTagPathValue ft.2 = []) ∧
        normalizeTagPathValue ft.2 = p
    then some (canonicalTagPath ft.2) else none)

/-- The components of the scan state that the per-tag loop reads and writes. -/
def tagCore (st : ScanState) : List (Str × Str) × List Str × List (Str × Finset Str) :=
  (st.caseMap, st.allTagsSet, st.tagFiles)

theorem scanTag_tagCore_congr (p t : Str) (st st' : ScanState)
    (h : tagCore st = tagCore st') :
    tagCore (scanTag p st t) = tagCore (scanTag p st' t) := by
  have h1 : st.caseMap = st'.caseMap := congrArg (fun x => x.1) h
  have h2 : st.allTagsSet = st'.allTagsSet := congrArg (fun x => x.2.1) h
  have h3 : st.tagFiles = st'.tagFiles := congrArg (fun x => x.2.2) h
  simp only [scanTag, h1, h2, h3]
  split
  · exact h
  · rfl

theorem scanPairs_tagCore_congr (pairs : List (Str × Str)) :
    ∀ (st st' : ScanState), tagCore st = tagCore st' →
    tagCore (scanPairs st pairs) = tagCore (scanPairs st' pairs) := by
  induction pairs with
  | nil => intro st st' h; exact h
  | cons pt rest ih =>
    intro st st' h
    exact ih _ _ (scanTag_tagCore_congr pt.1 pt.2 st st' h)

theorem scanFile_tagCore (ex : Option (List Str)) (he : Bool) (incl : Option (List Str))
    (st : ScanState) (path : Str) (tags? : Option (List Str)) :
    tagCore (scanFile ex he incl st path tags?) =
      tagCore (match fileContributes ex incl path tags? with
        | some tags => tags.foldl (scanTag path) st
        | none => st) := by
  simp only [scanFile, fileContributes]
  repeat' split
  all_goals first | rfl | simp_all

theorem scanFile_tagCore_pairs (ex : Option (List Str)) (he : Bool)
    (incl : Option (List Str)) (st : ScanState) (path : Str) (tags? : Option (List Str)) :
    tagCore (scanFile ex he incl st path tags?) =
      tagCore (scanPairs st (match fileContributes ex incl path tags? with
        | some tags => tags.map (fun t => (path, t))
        | none => [])) := by
  rw [scanFile_tagCore]
  cases fileContributes ex incl path tags? with
  | none => rfl
  | some tags =>
    show tagCore (tags.foldl (scanTag path) st) = _
    unfold scanPairs
    rw [List.foldl_map]

theorem pairsB_cons (ex incl : Option (List Str)) (b : Nat) (p : Str)
    (tg : Option (List Str)) (rest : List (Str × Option (List Str))) :
    processedPairsB ex incl (b + 1) ((p, tg) :: rest) =
      (match fileContributes ex incl p tg with
        | some tags => tags.map (fun t => (p, t))
        | none => []) ++ processedPairsB ex incl b rest := by
  unfold processedPairsB
  rw [List.take_succ_cons, List.flatMap_cons]

theorem scanPairs_append (st : ScanState) (a b : List (Str × Str)) :
    scanPairs st (a ++ b) = scanPairs (scanPairs st a) b := by
  unfold scanPairs
  rw [List.foldl_append]

theorem scanFiles_tagCore_pairs (ex : Option (List Str)) (he : Bool)
    (incl : Option (List Str)) :
    ∀ (files : List (Str × Option (List Str))) (st : ScanState),
      st.filesProcessed ≤ 100000 →
      tagCore (scanFiles ex he incl st files) =
        tagCore (scanPairs st (processedPairsB ex incl (100000 - st.filesProcessed) files)) := by
  intro files
  induction files with
  | nil =>
    intro st _
    unfold processedPairsB
    rw [List.take_nil]
    rfl
  | cons f rest ih =>
    intro st hle
    obtain ⟨p, tg⟩ := f
    by_cases hc : st.filesProcessed = 100000
    · have h0 : 100000 - st.filesProcessed = 0 := by omega
      rw [h0]
      unfold scanFiles
      rw [if_pos (by simp only; omega)]
      rfl
    · have hk : 100000 - st.filesProcessed = (100000 - st.filesProcessed - 1) + 1 := by omega
      unfold scanFiles
      rw [if_neg (by simp only; omega)]
      have hcount : (scanFile ex he incl
          { st with filesProcessed := st.filesProcessed + 1 } p tg).filesProcessed =
          st.filesProcessed + 1 := scanFile_filesProcessed _ _ _ _ _ _
      have hih := ih (scanFile ex he incl { st with filesProcessed := st.filesProcessed + 1 } p tg)
        (by rw [hcount]; omega)
      rw [hih, hcount]
      have harith : 100000 - (st.filesProcessed + 1) = 100000 - st.filesProcessed - 1 := by omega
      rw [harith, hk, pairsB_cons, scanPairs_append]
      apply scanPairs_tagCore_congr
      rw [scanFile_tagCore_pairs]
      apply scanPairs_tagCore_congr
      rfl

theorem firstCanon_cons_hit (f t : Str) (rest : List (Str × Str))
    (h : ¬ (canonicalTagPath t = [] ∨ normalizeTagPathValue t = [])) :
    firstCanon ((f, t) :: rest) (normalizeTagPathValue t) = some (canonicalTagPath t) := by
  unfold firstCanon
  rw [List.findSome?_cons]
  rw [if_pos ⟨h, rfl⟩]

theorem firstCanon_cons_miss (f t : Str) (rest : List (Str × Str)) (p : Str)
    (h : (canonicalTagPath t = [] ∨ normalizeTagPathValue t = []) ∨
      ¬ normalizeTagPathValue t = p) :
    firstCanon ((f, t) :: rest) p = firstCanon rest p := by
  unfold firstCanon
  rw [List.findSome?_cons]
  rw [if_neg ?_]
  rintro ⟨hok, hp⟩
  rcases h with hskip | hne
  · exact hok hskip
  · exact hne hp

theorem scanTag_caseMap_skip (f t : Str) (st : ScanState)
    (h : canonicalTagPath t = [] ∨ normalizeTagPathValue t = []) :
    scanTag f st t = st := by
  simp only [scanTag]
  rw [if_pos h]

theorem scanTag_caseMap_found (f t : Str) (st : ScanState) (c : Str)
    (hok : ¬ (canonicalTagPath t = [] ∨ normalizeTagPathValue t = []))
    (h : alFind st.caseMap (normalizeTagPathValue t) = some c) :
    (scanTag f st t).caseMap = st.caseMap := by
  simp only [scanTag]
  rw [if_neg hok]
  simp only [alHas, h, Option.isSome_some, if_pos]

theorem scanTag_caseMap_new (f t : Str) (st : ScanState)
    (hok : ¬ (canonicalTagPath t = [] ∨ normalizeTagPathValue t = []))
    (h : alFind st.caseMap (normalizeTagPathValue t) = none) :
    (scanTag f st t).caseMap =
      alSet st.caseMap (normalizeTagPathValue t) (canonicalTagPath t) := by
  simp only [scanTag]
  rw [if_neg hok]
  simp only [alHas, h, Option.isSome_none, Option.getD]
  rfl

theorem scanPairs_caseMap (p : Str) :
    ∀ (pairs : List (Str × Str)) (st : ScanState),
      alFind (scanPairs st pairs).caseMap p =
        (alFind st.caseMap p).or (firstCanon pairs p) := by
  intro pairs
  induction pairs with
  | nil =>
    intro st
    show alFind st.caseMap p = (alFind st.caseMap p).or none
    rw [Option.or_none]
  | cons ft rest ih =>
    intro st
    obtain ⟨f, t⟩ := ft
    show alFind (scanPairs (scanTag f st t) rest).caseMap p = _
    rw [ih]
    by_cases hskip : canonicalTagPath t = [] ∨ normalizeTagPathValue t = []
    · rw [scanTag_caseMap_skip f t st hskip, firstCanon_cons_miss f t rest p (Or.inl hskip)]
    · cases hfound : alFind st.caseMap (normalizeTagPathValue t) with
      | some c =>
        rw [scanTag_caseMap_found f t st c hskip hfound]
        by_cases hp : normalizeTagPathValue t = p
        · subst hp
          rw [firstCanon_cons_hit f t rest hskip, hfound]
          rfl
        · rw [firstCanon_cons_miss f t rest p (Or.inr hp)]
      | none =>
        rw [scanTag_caseMap_new f t st hskip hfound]
        by_cases hp : normalizeTagPathValue t = p
        · subst hp
          rw [alFind_alSet_self, hfound, firstCanon_cons_hit f t rest hskip]
          rfl
        · rw [alFind_alSet_ne _ _ _ _ hp, firstCanon_cons_miss f t rest p (Or.inr hp)]

theorem scanPairs_caseMap_stable (pairs : List (Str × Str)) (st : ScanState)
    (p c : Str) (h : alFind st.caseMap p = some c) :
    alFind (scanPairs st pairs).caseMap p = some c := by
  rw [scanPairs_caseMap, h]
  rfl

theorem scanTag_tagFiles (f t : Str) (st : ScanState)
    (hok : ¬ (canonicalTagPath t = [] ∨ normalizeTagPathValue t = [])) :
    (scanTag f st t).tagFiles =
      alSet st.tagFiles
        ((alFind st.caseMap (normalizeTagPathValue t)).getD (canonicalTagPath t))
        (insert f ((alFind st.tagFiles
          ((alFind st.caseMap (normalizeTagPathValue t)).getD
            (canonicalTagPath t))).getD ∅)) := by
  simp only [scanTag]
  rw [if_neg hok]
  cases h : alFind st.tagFiles
      ((alFind st.caseMap (normalizeTagPathValue t)).getD (canonicalTagPath t)) <;>
    simp [h]

theorem scanTag_tagFiles_grow (f t : Str) (st : ScanState) (c : Str) (S : Finset Str)
    (h : alFind st.tagFiles c = some S) :
    ∃ S', alFind (scanTag f st t).tagFiles c = some S' ∧ S ⊆ S' := by
  by_cases hok : canonicalTagPath t = [] ∨ normalizeTagPathValue t = []
  · rw [scanTag_caseMap_skip f t st hok]
    exact ⟨S, h, Finset.Subset.refl S⟩
  · rw [scanTag_tagFiles f t st hok]
    by_cases hc : (alFind st.caseMap (normalizeTagPathValue t)).getD (canonicalTagPath t) = c
    · rw [hc, h, alFind_alSet_self]
      refine ⟨_, rfl, ?_⟩
      rw [Option.getD_some]
      exact Finset.subset_insert f S
    · rw [alFind_alSet_ne _ _ _ _ hc]
      exact ⟨S, h, Finset.Subset.refl S⟩

theorem scanPairs_tagFiles_grow :
    ∀ (pairs : List (Str × Str)) (st : ScanState) (c : Str) (S : Finset Str),
      alFind st.tagFiles c = some S →
      ∃ S', alFind (scanPairs st pairs).tagFiles c = some S' ∧ S ⊆ S' := by
  intro pairs
  induction pairs with
  | nil => intro st c S h; exact ⟨S, h, Finset.Subset.refl S⟩
  | cons ft rest ih =>
    intro st c S h
    obtain ⟨S1, h1, hsub1⟩ := scanTag_tagFiles_grow ft.1 ft.2 st c S h
    obtain ⟨S2, h2, hsub2⟩ := ih (scanTag ft.1 st ft.2) c S1 h1
    exact ⟨S2, h2, hsub1.trans hsub2⟩

theorem scanPairs_tagFiles_mem :
    ∀ (pairs : List (Str × Str)) (st : ScanState) (f t : Str),
      (f, t) ∈ pairs →
      ¬ (canonicalTagPath t = [] ∨ normalizeTagPathValue t = []) →
      ∃ c S, alFind (scanPairs st pairs).caseMap (normalizeTagPathValue t) = some c ∧
        alFind (scanPairs st pairs).tagFiles c = some S ∧ f ∈ S := by
  intro pairs
  induction pairs with
  | nil => intro st f t h _; exact absurd h (List.not_mem_nil _)
  | cons ft rest ih =>
    intro st f t hmem hok
    rcases List.mem_cons.mp hmem with heq | hmem'
    · obtain ⟨f0, t0⟩ := ft
      injection heq with h1 h2
      subst h1
      subst h2
      have hck : alFind (scanTag f st t).caseMap (normalizeTagPathValue t) =
          some ((alFind st.caseMap (normalizeTagPathValue t)).getD (canonicalTagPath t)) := by
        cases hf : alFind st.caseMap (normalizeTagPathValue t) with
        | some c => rw [scanTag_caseMap_found f t st c hok hf, hf]; rfl
        | none => rw [scanTag_caseMap_new f t st hok hf, alFind_alSet_self]; rfl
      have htf : alFind (scanTag f st t).tagFiles
          ((alFind st.caseMap (normalizeTagPathValue t)).getD (canonicalTagPath t)) =
          some (insert f ((alFind st.tagFiles
            ((alFind st.caseMap (normalizeTagPathValue t)).getD
              (canonicalTagPath t))).getD ∅)) := by
        rw [scanTag_tagFiles f t st hok, alFind_alSet_self]
      obtain ⟨S', h2, hsub⟩ := scanPairs_tagFiles_grow rest (scanTag f st t) _ _ htf
      exact ⟨_, _, scanPairs_caseMap_stable rest (scanTag f st t) _ _ hck, h2,
        hsub (Finset.mem_insert_self f _)⟩
    · exact ih (scanTag ft.1 st ft.2) f t hmem' hok

/-- C7: during a single build, raw tag strings that normalize case-insensitively
to the same path are merged under one canonical tag: (i) the case map assigns to
every normalized path exactly the canonical casing of the first processed
occurrence of that path in the scan, and (ii) every processed occurrence's file
is recorded in the tag-to-files map under the single canonical key the case map
assigns to its normalized path. -/
theorem buildTagTreeFromDatabase_caseMerge
    (files : List (Str × Option (List Str))) (ex incl : Option (List Str)) :
    (∀ p, alFind (scanDatabase files ex incl).caseMap p =
        firstCanon (dbProcessedPairs files ex incl) p) ∧
    (∀ f t, (f, t) ∈ dbProcessedPairs files ex incl →
      ¬ (canonicalTagPath t = [] ∨ normalizeTagPathValue t = []) →
      ∃ c S,
        alFind (scanDatabase files ex incl).caseMap (normalizeTagPathValue t) = some c ∧
        alFind (scanDatabase files ex incl).tagFiles c = some S ∧ f ∈ S) := by
  have hdec : tagCore (scanDatabase files ex incl) =
      tagCore (scanPairs ⟨0, 0, [], [], [], []⟩ (dbProcessedPairs files ex incl)) := by
    simp only [scanDatabase, dbProcessedPairs]
    exact scanFiles_tagCore_pairs _ _ _ files ⟨0, 0, [], [], [], []⟩ (by decide)
  have hcm : (scanDatabase files ex incl).caseMap =
      (scanPairs ⟨0, 0, [], [], [], []⟩ (dbProcessedPairs files ex incl)).caseMap :=
    congrArg (fun x => x.1) hdec
  have htf : (scanDatabase files ex incl).tagFiles =
      (scanPairs ⟨0, 0, [], [], [], []⟩ (dbProcessedPairs files ex incl)).tagFiles :=
    congrArg (fun x => x.2.2) hdec
  refine ⟨fun p => ?_, fun f t hmem hok => ?_⟩
  · rw [hcm, scanPairs_caseMap]
    rfl
  · obtain ⟨c, S, h1, h2, h3⟩ :=
      scanPairs_tagFiles_mem (dbProcessedPairs files ex incl) ⟨0, 0, [], [], [], []⟩ f t hmem hok
    exact ⟨c, S, by rw [hcm]; exact h1, by rw [htf]; exact h2, h3⟩

def c7Files : List (Str × Option (List Str)) :=
  [(str "a.md", some [str "Foo"]), (str "b.md", some [str "foo"])]

theorem buildTagTreeFromDatabase_caseMerge_witness :
    (str "b.md", str "foo") ∈ dbProcessedPairs c7Files none none ∧
    ¬ (canonicalTagPath (str "foo") = [] ∨ normalizeTagPathValue (str "foo") = []) ∧
    (∃ c S,
      alFind (scanDatabase c7Files none none).caseMap
        (normalizeTagPathValue (str "foo")) = some c ∧
      alFind (scanDatabase c7Files none none).tagFiles c = some S ∧
      str "b.md" ∈ S) :=
  ⟨by decide, by decide,
    (buildTagTreeFromDatabase_caseMerge c7Files none none).2 (str "b.md") (str "foo")
      (by decide) (by decide)⟩

-- ### C1: slash counting through the normalizer

theorem charLower_slash : charLower '/' = '/' := by decide

theorem slashCount_strLower (s : Str) : slashCount (strLower s) = slashCount s := by
  unfold slashCount strLower
  induction s with
  | nil => rfl
  | cons c t ih =>
    rw [List.map_cons, List.count_cons, List.count_cons, ih]
    congr 1
    by_cases hc : c = '/'
    · rw [hc, charLower_slash]
    · have h2 : ¬ charLower c = '/' := fun h => hc ((charLower_slash_iff c).mp h)
      simp [hc, h2]

theorem slashCount_append (a b : Str) :
    slashCount (a ++ b) = slashCount a + slashCount b := by
  unfold slashCount
  exact List.count_append _ _ _

theorem slashCount_cons_slash (b : Str) : slashCount ('/' :: b) = slashCount b + 1 := by
  unfold slashCount
  simp [List.count_cons]

theorem slashCount_dropLeadSlash_le (s : Str) :
    slashCount (dropLeadSlash s) ≤ slashCount s := by
  unfold slashCount dropLeadSlash
  exact (List.dropWhile_sublist _).count_le _

theorem slashCount_reverse (s : Str) : slashCount s.reverse = slashCount s := by
  unfold slashCount
  exact List.count_reverse _ _

theorem slashCount_dropTrailSlash_le (s : Str) :
    slashCount (dropTrailSlash s) ≤ slashCount s := by
  unfold dropTrailSlash
  rw [slashCount_reverse]
  calc slashCount (dropLeadSlash s.reverse) ≤ slashCount s.reverse :=
        slashCount_dropLeadSlash_le _
    _ = slashCount s := slashCount_reverse s

theorem slashCount_stripHash_le (s : Str) : slashCount (stripHash s) ≤ slashCount s := by
  unfold stripHash
  split
  · unfold slashCount
    simp [List.count_cons]
  · exact Nat.le_refl _

theorem slashCount_normalize_le (s : Str) :
    slashCount (normalizeTagPathValue s) ≤ slashCount s := by
  unfold normalizeTagPathValue trimSlashes
  rw [slashCount_strLower]
  calc slashCount (dropTrailSlash (dropLeadSlash (stripHash s)))
      ≤ slashCount (dropLeadSlash (stripHash s)) := slashCount_dropTrailSlash_le _
    _ ≤ slashCount (stripHash s) := slashCount_dropLeadSlash_le _
    _ ≤ slashCount s := slashCount_stripHash_le s

theorem slashCount_joinSlash_le :
    ∀ (l : List Str), (∀ p ∈ l, slashCount p = 0) →
      slashCount (joinSlash l) ≤ l.length - 1
  | [], _ => Nat.le_refl _
  | [p], h => by
    rw [show joinSlash [p] = p from rfl, h p (List.mem_singleton_self p)]
    exact Nat.zero_le _
  | p :: q :: ps, h => by
    rw [joinSlash_cons, slashCount_append, slashCount_cons_slash,
      h p (List.mem_cons_self _ _)]
    have ih := slashCount_joinSlash_le (q :: ps)
      (fun r hr => h r (List.mem_cons_of_mem _ hr))
    simp only [List.length_cons] at ih ⊢
    omega

-- ### C1: how the normalizer acts on an appended path segment

theorem stripHash_append (p s : Str) (hp : p ≠ []) :
    stripHash (p ++ s) = stripHash p ++ s := by
  cases p with
  | nil => exact absurd rfl hp
  | cons c t =>
    by_cases hc : c = '#'
    · subst hc
      rfl
    · rw [stripHash_eq_self (c :: t) (by simp [hc]),
        stripHash_eq_self ((c :: t) ++ s) (by simp [hc])]

theorem dropLeadSlash_cons_slash (l : Str) : dropLeadSlash ('/' :: l) = dropLeadSlash l := by
  unfold dropLeadSlash
  rw [List.dropWhile_cons, if_pos (by simp)]

theorem dropLeadSlash_cons_ne (c : Char) (l : Str) (hc : ¬ c = '/') :
    dropLeadSlash (c :: l) = c :: l := by
  unfold dropLeadSlash
  rw [List.dropWhile_cons, if_neg (by simp [hc])]

theorem dropLeadSlash_append_of_ne_nil :
    ∀ (p : Str), dropLeadSlash p ≠ [] →
      ∀ (s : Str), dropLeadSlash (p ++ s) = dropLeadSlash p ++ s
  | [], h => absurd rfl h
  | c :: t, h => by
    intro s
    by_cases hc : c = '/'
    · subst hc
      rw [List.cons_append, dropLeadSlash_cons_slash, dropLeadSlash_cons_slash]
      rw [dropLeadSlash_cons_slash] at h
      exact dropLeadSlash_append_of_ne_nil t h s
    · rw [List.cons_append, dropLeadSlash_cons_ne c _ hc, dropLeadSlash_cons_ne c _ hc,
        List.cons_append]

theorem dropLeadSlash_append_of_nil :
    ∀ (p : Str), dropLeadSlash p = [] →
      ∀ (s : Str), dropLeadSlash (p ++ s) = dropLeadSlash s
  | [], _ => fun s => rfl
  | c :: t, h => by
    intro s
    by_cases hc : c = '/'
    · subst hc
      rw [List.cons_append, dropLeadSlash_cons_slash]
      rw [dropLeadSlash_cons_slash] at h
      exact dropLeadSlash_append_of_nil t h s
    · rw [dropLeadSlash_cons_ne c _ hc] at h
      simp at h

theorem dropTrailSlash_append_slash (b : Str) :
    dropTrailSlash (b ++ ['/']) = dropTrailSlash b := by
  unfold dropTrailSlash
  rw [List.reverse_append, show ['/'].reverse = ['/'] from rfl, List.singleton_append,
    dropLeadSlash_cons_slash]

theorem normalize_append_empty_part (p : Str) :
    normalizeTagPathValue (p ++ ['/']) = normalizeTagPathValue p := by
  cases hp : p with
  | nil => decide
  | cons c t =>
    rw [← hp]
    have hpne : p ≠ [] := by rw [hp]; simp
    unfold normalizeTagPathValue trimSlashes
    rw [stripHash_append p ['/'] hpne]
    by_cases hB : dropLeadSlash (stripHash p) = []
    · rw [dropLeadSlash_append_of_nil _ hB, hB]
      rfl
    · rw [dropLeadSlash_append_of_ne_nil _ hB, dropTrailSlash_append_slash]

theorem getLast?_mem_str (l : Str) (c : Char) (h : l.getLast? = some c) : c ∈ l := by
  rw [← List.head?_reverse] at h
  cases hr : l.reverse with
  | nil => rw [hr] at h; simp at h
  | cons d r =>
    rw [hr] at h
    simp only [List.head?_cons, Option.some.injEq] at h
    have hm : d ∈ l.reverse := by rw [hr]; exact List.mem_cons_self _ _
    rw [← h]
    exact List.mem_reverse.mp hm

theorem strLower_append (a b : Str) : strLower (a ++ b) = strLower a ++ strLower b := by
  unfold strLower
  exact List.map_append _ _ _

theorem normalize_append_part (prev x : Str) (hx : x ≠ []) (hxs : slashCount x = 0)
    (hP : normalizeTagPathValue prev ≠ []) :
    normalizeTagPathValue (prev ++ '/' :: x) =
      strLower (dropLeadSlash (stripHash prev)) ++ '/' :: strLower x ∧
    slashCount (normalizeTagPathValue prev) ≤
      slashCount (strLower (dropLeadSlash (stripHash prev))) := by
  have hprev : prev ≠ [] := by
    intro h
    subst h
    exact hP rfl
  have hB : dropLeadSlash (stripHash prev) ≠ [] := by
    intro h
    apply hP
    show strLower (trimSlashes (stripHash prev)) = []
    unfold trimSlashes
    rw [h]
    rfl
  have hnoslash : '/' ∉ x := by
    intro hm
    have := List.count_eq_zero.mp hxs
    exact this hm
  constructor
  · show strLower (trimSlashes (stripHash (prev ++ '/' :: x))) = _
    rw [stripHash_append prev ('/' :: x) hprev]
    unfold trimSlashes
    rw [dropLeadSlash_append_of_ne_nil _ hB ('/' :: x)]
    rw [dropTrailSlash_eq_self]
    · rw [strLower_append]
      rfl
    · intro c hc
      rw [List.getLast?_append_cons] at hc
      cases x with
      | nil => exact absurd rfl hx
      | cons d r =>
        rw [List.getLast?_cons_cons] at hc
        intro hcs
        subst hcs
        exact hnoslash (getLast?_mem_str (d :: r) '/' hc)
  · show slashCount (strLower (trimSlashes (stripHash prev))) ≤ _
    rw [slashCount_strLower, slashCount_strLower]
    unfold trimSlashes
    exact slashCount_dropTrailSlash_le _

theorem slash_lt_of_append_part (prev x : Str) (hx : x ≠ []) (hxs : slashCount x = 0)
    (hP : normalizeTagPathValue prev ≠ []) :
    slashCount (normalizeTagPathValue prev) <
      slashCount (normalizeTagPathValue (prev ++ '/' :: x)) := by
  obtain ⟨heq, hle⟩ := normalize_append_part prev x hx hxs hP
  rw [heq, slashCount_append, slashCount_cons_slash]
  have h2 : slashCount (strLower x) = 0 := by rw [slashCount_strLower]; exact hxs
  omega

-- ### C1: the shape invariant of the built node graph

/-- Shape invariant of the assembled node graph: keys are nonempty, each node
records its own key as `path`, keys stay within the depth the collector can
reach (at most 50 slashes when every tag has at most 51 segments), and every
child link points at an existing node whose key is either the node itself or
strictly deeper. -/
def EnvGood (env : List (Str × TagNode)) : Prop :=
  ∀ k n, alFind env k = some n →
    k ≠ [] ∧ n.path = k ∧ slashCount k ≤ 50 ∧
    ∀ ck ∈ n.children, alHas env ck = true ∧ (ck = k ∨ slashCount k < slashCount ck)

theorem stepCreate_envGood (env : List (Str × TagNode)) (roots : List Str)
    (key part currentPath : Str) (isRoot : Bool) (hG : EnvGood env)
    (hne : key ≠ []) (hsc : slashCount key ≤ 50) :
    EnvGood (stepCreate env roots key part currentPath isRoot).1 := by
  unfold stepCreate
  cases hfind : alFind env key with
  | some _ => exact hG
  | none =>
    intro k n hk
    by_cases hkk : key = k
    · subst hkk
      rw [alFind_alSet_self] at hk
      injection hk with hk
      subst hk
      refine ⟨hne, rfl, hsc, ?_⟩
      intro ck hck
      simp at hck
    · rw [alFind_alSet_ne _ _ _ _ hkk] at hk
      obtain ⟨h1, h2, h3, h4⟩ := hG k n hk
      refine ⟨h1, h2, h3, fun ck hck => ?_⟩
      obtain ⟨ha, hrel⟩ := h4 ck hck
      exact ⟨alHas_alSet_mono _ _ _ _ ha, hrel⟩

theorem stepAttach_envGood (tagFiles : List (Str × Finset Str))
    (env : List (Str × TagNode)) (key currentPath : Str) (isLast : Bool)
    (hG : EnvGood env) : EnvGood (stepAttach tagFiles env key currentPath isLast) := by
  unfold stepAttach
  split
  · cases hf : alFind tagFiles currentPath with
    | some files =>
      cases hn : alFind env key with
      | some node =>
        intro k n hk
        by_cases hkk : key = k
        · subst hkk
          rw [alFind_alSet_self] at hk
          injection hk with hk
          obtain ⟨h1, h2, h3, h4⟩ := hG key node hn
          subst hk
          refine ⟨h1, h2, h3, fun ck hck => ?_⟩
          obtain ⟨ha, hrel⟩ := h4 ck hck
          exact ⟨alHas_alSet_mono _ _ _ _ ha, hrel⟩
        · rw [alFind_alSet_ne _ _ _ _ hkk] at hk
          obtain ⟨h1, h2, h3, h4⟩ := hG k n hk
          exact ⟨h1, h2, h3, fun ck hck =>
            ⟨alHas_alSet_mono _ _ _ _ (h4 ck hck).1, (h4 ck hck).2⟩⟩
      | none => exact hG
    | none => exact hG
  · exact hG

theorem stepLink_envGood (env : List (Str × TagNode)) (key parentPath : Str)
    (hG : EnvGood env) (hkey : alHas env key = true)
    (hrel : ∀ parent, alFind env parentPath = some parent →
      key = parentPath ∨ slashCount parentPath < slashCount key) :
    EnvGood (stepLink env key parentPath) := by
  cases hp : alFind env parentPath with
  | none => simp only [stepLink, hp]; exact hG
  | some parent =>
    simp only [stepLink, hp]
    split
    · exact hG
    · intro k n hk
      by_cases hkk : parentPath = k
      · subst hkk
        rw [alFind_alSet_self] at hk
        injection hk with hk
        obtain ⟨h1, h2, h3, h4⟩ := hG parentPath parent hp
        subst hk
        refine ⟨h1, h2, h3, fun ck hck => ?_⟩
        rcases List.mem_append.mp hck with hold | hnew
        · obtain ⟨ha, hrelold⟩ := h4 ck hold
          exact ⟨alHas_alSet_mono _ _ _ _ ha, hrelold⟩
        · have hck' : ck = key := by simpa using hnew
          subst hck'
          refine ⟨alHas_alSet_mono _ _ _ _ hkey, ?_⟩
          rcases hrel parent hp with heq | hlt
          · exact Or.inl heq
          · exact Or.inr hlt
      · rw [alFind_alSet_ne _ _ _ _ hkk] at hk
        obtain ⟨h1, h2, h3, h4⟩ := hG k n hk
        exact ⟨h1, h2, h3, fun ck hck =>
          ⟨alHas_alSet_mono _ _ _ _ (h4 ck hck).1, (h4 ck hck).2⟩⟩

theorem stepCreate_has (env : List (Str × TagNode)) (roots : List Str)
    (key part currentPath : Str) (isRoot : Bool) :
    alHas (stepCreate env roots key part currentPath isRoot).1 key = true := by
  unfold stepCreate
  cases hfind : alFind env key with
  | some v =>
    show alHas env key = true
    unfold alHas
    rw [hfind]
    rfl
  | none =>
    show alHas (alSet env key _) key = true
    unfold alHas
    rw [alFind_alSet_self]
    rfl

theorem stepAttach_has (tagFiles : List (Str × Finset Str))
    (env : List (Str × TagNode)) (key currentPath k : Str) (isLast : Bool)
    (h : alHas env k = true) :
    alHas (stepAttach tagFiles env key currentPath isLast) k = true := by
  unfold stepAttach
  split
  · cases hf : alFind tagFiles currentPath with
    | some files =>
      cases hn : alFind env key with
      | some node => exact alHas_alSet_mono _ _ _ _ h
      | none => exact h
    | none => exact h
  · exact h

theorem buildParts_envGood (tagFiles : List (Str × Finset Str)) (parts0 : List Str)
    (hsl : ∀ p ∈ parts0, slashCount p = 0) (hlen : parts0.length ≤ 51) :
    ∀ (rest : List Str) (i : Nat) (prevPath : Str) (env : List (Str × TagNode))
      (roots : List Str),
      parts0.drop i = rest →
      (i = 0 ∨ prevPath = joinSlash (parts0.take i)) →
      EnvGood env →
      EnvGood (buildParts tagFiles parts0 rest i prevPath env roots).1 := by
  intro rest
  induction rest with
  | nil =>
    intro i prevPath env roots _ _ hG
    exact hG
  | cons part rest' ih =>
    intro i prevPath env roots hdrop hprev hG
    have hdrop' : parts0.drop (i + 1) = rest' := drop_succ_of_drop _ _ _ _ hdrop
    have hmempart : part ∈ parts0 := by
      apply List.drop_subset i parts0
      rw [hdrop]
      exact List.mem_cons_self _ _
    simp only [buildParts]
    generalize hcp : (if i = 0 then part else prevPath ++ '/' :: part) = cp
    have hcur : cp = joinSlash (parts0.take (i + 1)) := by
      rw [← hcp, joinSlash_take_succ parts0 i part rest' hdrop]
      by_cases h0 : i = 0
      · rw [if_pos h0, if_pos h0]
      · rcases hprev with h0' | hp
        · exact absurd h0' h0
        · rw [if_neg h0, if_neg h0, hp]
    have hprev' : i + 1 = 0 ∨ cp = joinSlash (parts0.take (i + 1)) := Or.inr hcur
    by_cases hkey : normalizeTagPathValue cp = []
    · rw [if_pos hkey]
      exact ih (i + 1) cp env roots hdrop' hprev' hG
    · rw [if_neg hkey]
      have hsc : slashCount (normalizeTagPathValue cp) ≤ 50 := by
        have hle1 : slashCount (normalizeTagPathValue cp) ≤ slashCount cp :=
          slashCount_normalize_le cp
        have hle2 : slashCount cp ≤ (parts0.take (i + 1)).length - 1 := by
          rw [hcur]
          exact slashCount_joinSlash_le _ (fun p hp => hsl p (List.mem_of_mem_take hp))
        have hle3 : (parts0.take (i + 1)).length ≤ parts0.length := by
          rw [List.length_take]
          omega
        omega
      have hG1 := stepCreate_envGood env roots (normalizeTagPathValue cp) part cp
        (decide (i = 0)) hG hkey hsc
      have hG2 := stepAttach_envGood tagFiles _ (normalizeTagPathValue cp) cp
        rest'.isEmpty hG1
      have hhas1 := stepCreate_has env roots (normalizeTagPathValue cp) part cp
        (decide (i = 0))
      have hhas2 := stepAttach_has tagFiles _ (normalizeTagPathValue cp) cp
        (normalizeTagPathValue cp) rest'.isEmpty hhas1
      by_cases h0 : i = 0
      · rw [if_pos h0]
        exact ih (i + 1) cp _ _ hdrop' hprev' hG2
      · rw [if_neg h0]
        refine ih (i + 1) cp _ _ hdrop' hprev' (stepLink_envGood _ _ _ hG2 hhas2 ?_)
        intro parent hpfind
        rcases hprev with h0' | hpv
        · exact absurd h0' h0
        obtain ⟨hPne, _, _, _⟩ := hG2 _ parent hpfind
        have hcp' : cp = prevPath ++ '/' :: part := by rw [← hcp, if_neg h0]
        by_cases hpart : part = []
        · subst hpart
          left
          rw [hcp', hpv]
          exact normalize_append_empty_part _
        · right
          rw [hcp', ← hpv]
          have hxs : slashCount part = 0 := hsl part hmempart
          have hPprev : normalizeTagPathValue prevPath ≠ [] := by
            rw [hpv]
            exact hPne
          exact slash_lt_of_append_part prevPath part hpart hxs hPprev

theorem buildTreeFromList_envGood (tagFiles : List (Str × Finset Str))
    (tagPaths : List Str) (hseg : ∀ t ∈ tagPaths, (splitSlash t).length ≤ 51) :
    EnvGood (buildTreeFromList tagFiles tagPaths).1 := by
  unfold buildTreeFromList
  split
  · intro k n hk
    simp [alFind] at hk
  · have hgen : ∀ (l : List Str) (acc : List (Str × TagNode) × List Str),
        (∀ t ∈ l, t ∈ tagPaths) → EnvGood acc.1 →
        EnvGood
          ((l.foldl (fun acc tagPath =>
            let parts := splitSlash tagPath
            if parts.length > 100 then acc
            else buildParts tagFiles parts parts 0 [] acc.1 acc.2) acc).1) := by
      intro l
      induction l with
      | nil => intro acc _ hG; exact hG
      | cons tagPath rest ih =>
        intro acc hsub hG
        rw [List.foldl_cons]
        apply ih _ (fun t ht => hsub t (List.mem_cons_of_mem _ ht))
        simp only
        split
        · exact hG
        · refine buildParts_envGood tagFiles (splitSlash tagPath) ?_ ?_
            (splitSlash tagPath) 0 [] acc.1 acc.2 rfl (Or.inl rfl) hG
          · intro p hp
            apply List.count_eq_zero.mpr
            intro hm
            exact splitSlash_no_slash tagPath p hp '/' hm rfl
          · exact hseg tagPath (hsub tagPath (List.mem_cons_self _ _))
    apply hgen
    · intro t ht
      exact sortTags_mem tagPaths t ht
    · intro k n hk
      simp [alFind] at hk

-- ### C1: the reference union and its saturation

theorem descUnionList_infl (rec_ : Str → Finset Str) :
    ∀ (l : List Str) (acc : Finset Str), acc ⊆ descUnionList rec_ l acc
  | [], _ => Finset.Subset.refl _
  | ck :: rest, acc => by
    show acc ⊆ descUnionList rec_ rest (acc ∪ rec_ ck)
    exact (Finset.subset_union_left).trans (descUnionList_infl rec_ rest _)

theorem descUnionList_sub (rec_ : Str → Finset Str) (X : Finset Str) :
    ∀ (l : List Str) (acc : Finset Str), acc ⊆ X → (∀ ck ∈ l, rec_ ck ⊆ X) →
      descUnionList rec_ l acc ⊆ X
  | [], acc, hacc, _ => hacc
  | ck :: rest, acc, hacc, hl => by
    show descUnionList rec_ rest (acc ∪ rec_ ck) ⊆ X
    exact descUnionList_sub rec_ X rest _
      (Finset.union_subset hacc (hl ck (List.mem_cons_self _ _)))
      (fun c hc => hl c (List.mem_cons_of_mem _ hc))

theorem descUnionList_comp (rec_ : Str → Finset Str) (c : Str) :
    ∀ (l : List Str) (acc : Finset Str), c ∈ l → rec_ c ⊆ descUnionList rec_ l acc
  | [], _, hc => absurd hc (List.not_mem_nil _)
  | ck :: rest, acc, hc => by
    show rec_ c ⊆ descUnionList rec_ rest (acc ∪ rec_ ck)
    rcases List.mem_cons.mp hc with rfl | hc'
    · exact (Finset.subset_union_right).trans (descUnionList_infl rec_ rest _)
    · exact descUnionList_comp rec_ c rest _ hc'

theorem descUnionList_mono (rec1 rec2 : Str → Finset Str) :
    ∀ (l : List Str) (acc acc' : Finset Str), acc ⊆ acc' →
      (∀ ck ∈ l, rec1 ck ⊆ rec2 ck) →
      descUnionList rec1 l acc ⊆ descUnionList rec2 l acc'
  | [], _, _, hacc, _ => hacc
  | ck :: rest, acc, acc', hacc, hl => by
    show descUnionList rec1 rest (acc ∪ rec1 ck) ⊆ descUnionList rec2 rest (acc' ∪ rec2 ck)
    exact descUnionList_mono rec1 rec2 rest _ _
      (Finset.union_subset_union hacc (hl ck (List.mem_cons_self _ _)))
      (fun c hc => hl c (List.mem_cons_of_mem _ hc))

theorem descUnion_mono_fuel (env : List (Str × TagNode)) :
    ∀ (f g : Nat), f ≤ g → ∀ (k : Str), descUnion env f k ⊆ descUnion env g k := by
  intro f
  induction f with
  | zero =>
    intro g _ k
    show (∅ : Finset Str) ⊆ _
    exact Finset.empty_subset _
  | succ f ih =>
    intro g hg k
    cases g with
    | zero => omega
    | succ g' =>
      cases hfind : alFind env k with
      | none =>
        simp only [descUnion, hfind]
        exact Finset.Subset.refl _
      | some n =>
        simp only [descUnion, hfind]
        exact descUnionList_mono _ _ n.children _ _ (Finset.Subset.refl _)
          (fun ck _ => ih g' (by omega) ck)

theorem descUnion_le_sat (env : List (Str × TagNode)) (hG : EnvGood env) :
    ∀ (f : Nat) (k : Str), descUnion env f k ⊆ descUnion env (51 - slashCount k) k := by
  intro f
  induction f with
  | zero =>
    intro k
    show (∅ : Finset Str) ⊆ _
    exact Finset.empty_subset _
  | succ f ih =>
    intro k
    cases hfind : alFind env k with
    | none =>
      simp only [descUnion, hfind]
      exact Finset.empty_subset _
    | some n =>
      obtain ⟨_, _, hsc, hch⟩ := hG k n hfind
      have h51 : 51 - slashCount k = (50 - slashCount k) + 1 := by omega
      rw [h51]
      simp only [descUnion, hfind]
      apply descUnionList_sub
      · exact descUnionList_infl _ _ _
      · intro ck hck
        obtain ⟨hhas, hrel⟩ := hch ck hck
        rcases hrel with rfl | hlt
        · have hfold : descUnion env (51 - slashCount ck) ck =
              descUnionList (fun c => descUnion env (50 - slashCount ck) c)
                n.children n.notesWithTag := by
            rw [h51]
            simp only [descUnion, hfind]
          calc descUnion env f ck ⊆ descUnion env (51 - slashCount ck) ck := ih ck
            _ ⊆ _ := by rw [hfold]
        · calc descUnion env f ck ⊆ descUnion env (51 - slashCount ck) ck := ih ck
            _ ⊆ descUnion env (50 - slashCount k) ck :=
              descUnion_mono_fuel env _ _ (by omega) ck
            _ ⊆ _ := descUnionList_comp _ ck n.children n.notesWithTag hck

theorem descUnion_sat (env : List (Str × TagNode)) (hG : EnvGood env) (f : Nat) (k : Str)
    (hf : 51 - slashCount k ≤ f) :
    descUnion env f k = descUnion env (51 - slashCount k) k :=
  Finset.Subset.antisymm (descUnion_le_sat env hG f k)
    (descUnion_mono_fuel env _ _ hf k)

-- ### C1: the collector against the reference union

theorem collectChildren_infl (env : List (Str × TagNode))
    (rec_ : Finset Str → Str → Finset Str) (hrec : ∀ a c, a ⊆ rec_ a c) :
    ∀ (l : List Str) (acc : Finset Str), acc ⊆ collectChildren env rec_ l acc
  | [], _ => Finset.Subset.refl _
  | ck :: rest, acc => by
    show acc ⊆ collectChildren env rec_ rest
      (match alFind env ck with
        | none => acc
        | some child => rec_ (acc ∪ child.notesWithTag) ck)
    refine Finset.Subset.trans ?_ (collectChildren_infl env rec_ hrec rest _)
    cases alFind env ck with
    | none => exact Finset.Subset.refl _
    | some child => exact (Finset.subset_union_left).trans (hrec _ ck)

theorem collectNode_infl (env : List (Str × TagNode)) :
    ∀ (f : Nat) (vis : List Str) (acc : Finset Str) (k : Str),
      acc ⊆ collectNode env f vis acc k
  | 0, _, _, _ => Finset.Subset.refl _
  | f + 1, vis, acc, k => by
    show acc ⊆ collectNode env (f + 1) vis acc k
    cases hfind : alFind env k with
    | none =>
      simp only [collectNode, hfind]
      exact Finset.Subset.refl _
    | some n =>
      simp only [collectNode, hfind]
      split
      · exact Finset.Subset.refl _
      · exact collectChildren_infl env _
          (fun a c => collectNode_infl env f (n.path :: vis) a c) n.children acc

theorem collectChildren_pos (env : List (Str × TagNode))
    (rec_ : Finset Str → Str → Finset Str) (hrec : ∀ a c, a ⊆ rec_ a c) :
    ∀ (l : List Str) (acc : Finset Str) (ck : Str) (child : TagNode),
      ck ∈ l → alFind env ck = some child →
      ∃ a, acc ⊆ a ∧ rec_ (a ∪ child.notesWithTag) ck ⊆ collectChildren env rec_ l acc
  | [], _, _, _, hck, _ => absurd hck (List.not_mem_nil _)
  | c0 :: rest, acc, ck, child, hck, hfm => by
    rcases List.mem_cons.mp hck with rfl | hck'
    · refine ⟨acc, Finset.Subset.refl _, ?_⟩
      show rec_ (acc ∪ child.notesWithTag) ck ⊆ collectChildren env rec_ rest
        (match alFind env ck with
          | none => acc
          | some child => rec_ (acc ∪ child.notesWithTag) ck)
      rw [hfm]
      exact collectChildren_infl env rec_ hrec rest _
    · have hstep : acc ⊆ (match alFind env c0 with
          | none => acc
          | some child => rec_ (acc ∪ child.notesWithTag) c0) := by
        cases alFind env c0 with
        | none => exact Finset.Subset.refl _
        | some child0 => exact (Finset.subset_union_left).trans (hrec _ c0)
      obtain ⟨a, ha1, ha2⟩ := collectChildren_pos env rec_ hrec rest _ ck child hck' hfm
      exact ⟨a, hstep.trans ha1, ha2⟩

theorem collectChildren_sub (env : List (Str × TagNode))
    (rec_ : Finset Str → Str → Finset Str) (X : Finset Str) :
    ∀ (l : List Str) (acc : Finset Str), acc ⊆ X →
      (∀ ck ∈ l, ∀ a, a ⊆ X →
        (match alFind env ck with
          | none => a
          | some child => rec_ (a ∪ child.notesWithTag) ck) ⊆ X) →
      collectChildren env rec_ l acc ⊆ X
  | [], _, hacc, _ => hacc
  | ck :: rest, acc, hacc, hl => by
    show collectChildren env rec_ rest _ ⊆ X
    exact collectChildren_sub env rec_ X rest _
      (hl ck (List.mem_cons_self _ _) acc hacc)
      (fun c hc => hl c (List.mem_cons_of_mem _ hc))

theorem descUnion_succ (env : List (Str × TagNode)) (fuel : Nat) (key : Str) :
    descUnion env (fuel + 1) key =
      match alFind env key with
      | none => ∅
      | some n =>
        descUnionList (fun c => descUnion env fuel c) n.children n.notesWithTag := rfl

theorem descUnion_succ_some (env : List (Str × TagNode)) (fuel : Nat) (key : Str)
    (n : TagNode) (hfind : alFind env key = some n) :
    descUnion env (fuel + 1) key =
      descUnionList (fun c => descUnion env fuel c) n.children n.notesWithTag := by
  rw [descUnion_succ, hfind]

theorem collectNode_succ (env : List (Str × TagNode)) (f : Nat) (vis : List Str)
    (acc : Finset Str) (key : Str) :
    collectNode env (f + 1) vis acc key =
      match alFind env key with
      | none => acc
      | some n =>
        if n.path ∈ vis then acc
        else collectChildren env
          (fun a k => collectNode env f (n.path :: vis) a k) n.children acc := rfl

theorem collect_le_descUnion (env : List (Str × TagNode)) :
    ∀ (f : Nat) (vis : List Str) (acc : Finset Str) (k : Str),
      collectNode env f vis acc k ⊆ acc ∪ descUnion env (f + 1) k := by
  intro f
  induction f with
  | zero =>
    intro vis acc k
    exact Finset.subset_union_left
  | succ f ih =>
    intro vis acc k
    cases hfind : alFind env k with
    | none =>
      simp only [collectNode, hfind]
      exact Finset.subset_union_left
    | some n =>
      simp only [collectNode, hfind]
      split
      · exact Finset.subset_union_left
      · apply collectChildren_sub
        · exact Finset.subset_union_left
        · intro ck hck a ha
          cases hfm : alFind env ck with
          | none => exact ha
          | some child =>
            have hd : descUnion env (f + 1) ck ⊆ descUnion env (f + 1 + 1) k := by
              rw [descUnion_succ_some env (f + 1) k n hfind]
              exact descUnionList_comp _ ck n.children n.notesWithTag hck
            have hfiles : child.notesWithTag ⊆ descUnion env (f + 1) ck := by
              rw [descUnion_succ_some env f ck child hfm]
              exact descUnionList_infl _ _ _
            refine (ih (n.path :: vis) (a ∪ child.notesWithTag) ck).trans ?_
            apply Finset.union_subset
            · apply Finset.union_subset ha
              exact (hfiles.trans hd).trans Finset.subset_union_right
            · exact hd.trans Finset.subset_union_right

theorem descUnion_le_collect (env : List (Str × TagNode)) (hG : EnvGood env) :
    ∀ (f g : Nat) (vis : List Str) (acc : Finset Str) (k : Str) (n : TagNode),
      alFind env k = some n → n.notesWithTag ⊆ acc →
      (∀ v ∈ vis, slashCount v < slashCount k) →
      50 - slashCount k ≤ f → g ≤ 51 - slashCount k →
      descUnion env g k ⊆ collectNode env f vis acc k := by
  intro f
  induction f with
  | zero =>
    intro g vis acc k n hfind hfiles _ hfuel hg
    obtain ⟨_, _, hsc, _⟩ := hG k n hfind
    show descUnion env g k ⊆ acc
    cases g with
    | zero => exact Finset.empty_subset _
    | succ g' =>
      have hg0 : g' = 0 := by omega
      subst hg0
      rw [descUnion_succ_some env 0 k n hfind]
      apply descUnionList_sub
      · exact hfiles
      · intro ck _
        exact Finset.empty_subset _
  | succ f ihf =>
    intro g
    induction g with
    | zero =>
      intro vis acc k n _ _ _ _ _
      exact Finset.empty_subset _
    | succ g' ihg =>
      intro vis acc k n hfind hfiles hvis hfuel hg
      obtain ⟨hkne, hpath, hsc, hch⟩ := hG k n hfind
      have hnot : ¬ n.path ∈ vis := by
        rw [hpath]
        intro hmem
        exact absurd (hvis k hmem) (lt_irrefl _)
      have hcoll : collectNode env (f + 1) vis acc k =
          collectChildren env (fun a c => collectNode env f (n.path :: vis) a c)
            n.children acc := by
        rw [collectNode_succ, hfind]
        exact if_neg hnot
      rw [hcoll, descUnion_succ_some env g' k n hfind]
      apply descUnionList_sub
      · exact hfiles.trans (collectChildren_infl env _
          (fun a c => collectNode_infl env f (n.path :: vis) a c) n.children acc)
      · intro ck hck
        obtain ⟨hhas, hrel⟩ := hch ck hck
        rcases hrel with rfl | hlt
        · have hself := ihg vis acc ck n hfind hfiles hvis hfuel (by omega)
          rw [hcoll] at hself
          exact hself
        · unfold alHas at hhas
          cases hfm : alFind env ck with
          | none => rw [hfm] at hhas; simp at hhas
          | some m =>
            obtain ⟨a, hacca, hsub⟩ := collectChildren_pos env _
              (fun a c => collectNode_infl env f (n.path :: vis) a c)
              n.children acc ck m hck hfm
            calc descUnion env g' ck
                ⊆ descUnion env (51 - slashCount ck) ck := descUnion_le_sat env hG g' ck
              _ ⊆ collectNode env f (n.path :: vis) (a ∪ m.notesWithTag) ck := by
                  apply ihf (51 - slashCount ck) (n.path :: vis) (a ∪ m.notesWithTag)
                    ck m hfm Finset.subset_union_right
                  · intro v hv
                    rcases List.mem_cons.mp hv with rfl | hv'
                    · rw [hpath] at *
                      exact hlt
                    · exact (hvis v hv').trans hlt
                  · omega
                  · exact Nat.le_refl _
              _ ⊆ _ := hsub

theorem getTotalNoteCount_eq_card (env : List (Str × TagNode)) (hG : EnvGood env)
    (k : Str) (n : TagNode) (hfind : alFind env k = some n) (fuel : Nat)
    (hf : 51 ≤ fuel) :
    getTotalNoteCount env k = (descUnion env fuel k).card := by
  obtain ⟨_, _, hsc, _⟩ := hG k n hfind
  have hset : collectNode env 50 [] n.notesWithTag k = descUnion env 51 k := by
    apply Finset.Subset.antisymm
    · refine (collect_le_descUnion env 50 [] n.notesWithTag k).trans ?_
      apply Finset.union_subset ?_ (Finset.Subset.refl _)
      rw [descUnion_succ_some env 50 k n hfind]
      exact descUnionList_infl _ _ _
    · rw [descUnion_sat env hG 51 k (by omega)]
      exact descUnion_le_collect env hG 50 (51 - slashCount k) [] n.notesWithTag k n
        hfind (Finset.Subset.refl _) (by intro v hv; simp at hv) (by omega)
        (Nat.le_refl _)
  have hfuel : descUnion env fuel k = descUnion env 51 k := by
    rw [descUnion_sat env hG fuel k (by omega), descUnion_sat env hG 51 k (by omega)]
  simp only [getTotalNoteCount, hfind]
  rw [hset, hfuel]

theorem getTotalNoteCount_child_le (env : List (Str × TagNode)) (hG : EnvGood env)
    (k : Str) (n : TagNode) (hfind : alFind env k = some n) (ck : Str)
    (hck : ck ∈ n.children) :
    getTotalNoteCount env ck ≤ getTotalNoteCount env k := by
  obtain ⟨_, _, hsc, hch⟩ := hG k n hfind
  obtain ⟨hhas, hrel⟩ := hch ck hck
  rcases hrel with rfl | hlt
  · exact Nat.le_refl _
  · unfold alHas at hhas
    cases hfm : alFind env ck with
    | none => rw [hfm] at hhas; simp at hhas
    | some m =>
      obtain ⟨_, _, hscm, _⟩ := hG ck m hfm
      rw [getTotalNoteCount_eq_card env hG k n hfind 51 (Nat.le_refl _),
        getTotalNoteCount_eq_card env hG ck m hfm 51 (Nat.le_refl _)]
      apply Finset.card_le_card
      rw [descUnion_sat env hG 51 ck (by omega)]
      calc descUnion env (51 - slashCount ck) ck
          ⊆ descUnion env (50 - slashCount k) ck :=
            descUnion_mono_fuel env _ _ (by omega) ck
        _ ⊆ descUnionList (fun c => descUnion env (50 - slashCount k) c)
              n.children n.notesWithTag :=
            descUnionList_comp _ ck n.children n.notesWithTag hck
        _ = descUnion env ((50 - slashCount k) + 1) k :=
            (descUnion_succ_some env (50 - slashCount k) k n hfind).symm
        _ ⊆ descUnion env 51 k := descUnion_mono_fuel env _ _ (by omega) k

/-- C1 (amended): when every canonical tag of the scan has at most 51 segments
(so the whole tree fits within the collector's 50-level depth cap), every
node's `getTotalNoteCount` equals the cardinality of the union (not the sum)
of `notesWithTag` over the node and all of its descendants --- `descUnion` at
any saturating fuel --- and `totalNoteCount(parent) ≥ totalNoteCount(child)`
for every parent/child link.  Without the segment bound both parts fail (see
the counterexample). -/
theorem getTotalNoteCount_union (files : List (Str × Option (List Str)))
    (ex incl : Option (List Str))
    (hseg : ∀ t ∈ (scanDatabase files ex incl).allTagsSet, (splitSlash t).length ≤ 51) :
    ∀ k n, alFind (buildTagTreeFromDatabase files ex incl).allNodes k = some n →
      (∀ fuel, 51 ≤ fuel →
        getTotalNoteCount (buildTagTreeFromDatabase files ex incl).allNodes k =
          (descUnion (buildTagTreeFromDatabase files ex incl).allNodes fuel k).card) ∧
      ∀ ck ∈ n.children,
        getTotalNoteCount (buildTagTreeFromDatabase files ex incl).allNodes ck ≤
          getTotalNoteCount (buildTagTreeFromDatabase files ex incl).allNodes k := by
  have hG : EnvGood (buildTagTreeFromDatabase files ex incl).allNodes := by
    have heq : (buildTagTreeFromDatabase files ex incl).allNodes =
        (buildTreeFromList (scanDatabase files ex incl).tagFiles
          (scanDatabase files ex incl).allTagsSet).1 := rfl
    rw [heq]
    exact buildTreeFromList_envGood _ _ hseg
  intro k n hfind
  exact ⟨fun fuel hf => getTotalNoteCount_eq_card _ hG k n hfind fuel hf,
    fun ck hck => getTotalNoteCount_child_le _ hG k n hfind ck hck⟩

/-- The input of the C1 witness: a two-level tag with mixed casing plus a
separate root tag. -/
def c1Files : List (Str × Option (List Str)) :=
  [(str "x.md", some [str "A/b"]), (str "y.md", some [str "a"])]

/-- The node the C1 witness inspects. -/
def c1Node : TagNode := ⟨str "A", str "a", str "A", [str "a/b"], {str "y.md"}⟩

theorem getTotalNoteCount_union_witness :
    (∀ t ∈ (scanDatabase c1Files none none).allTagsSet, (splitSlash t).length ≤ 51) ∧
    alFind (buildTagTreeFromDatabase c1Files none none).allNodes (str "a") =
      some c1Node ∧
    getTotalNoteCount (buildTagTreeFromDatabase c1Files none none).allNodes (str "a") =
      (descUnion (buildTagTreeFromDatabase c1Files none none).allNodes 51
        (str "a")).card ∧
    ∀ ck ∈ c1Node.children,
      getTotalNoteCount (buildTagTreeFromDatabase c1Files none none).allNodes ck ≤
        getTotalNoteCount (buildTagTreeFromDatabase c1Files none none).allNodes
          (str "a") :=
  ⟨by decide, by decide,
    ((getTotalNoteCount_union c1Files none none (by decide)) (str "a") c1Node
      (by decide)).1 51 (Nat.le_refl _),
    ((getTotalNoteCount_union c1Files none none (by decide)) (str "a") c1Node
      (by decide)).2⟩

/-- The C1 counterexample input: one file tagged with a 52-segment tag, deeper
than the collector's 50-level depth cap although the builder accepts up to 100
segments. -/
def c1DeepTag : Str := joinSlash (List.replicate 52 (str "a"))

def c1DeepFiles : List (Str × Option (List Str)) := [(str "f.md", some [c1DeepTag])]

def c1DeepEnv : List (Str × TagNode) :=
  (buildTagTreeFromDatabase c1DeepFiles none none).allNodes

set_option maxRecDepth 20000 in
/-- Counterexample for C1 as stated: on a 52-segment tag the root's
`getTotalNoteCount` is 0 although the union of `notesWithTag` over the root
and its descendants holds the tagged file, and the root's child has a strictly
larger count than the root --- both the union equality and the parent/child
monotonicity fail once the tree is deeper than the 50-level depth cap. -/
theorem getTotalNoteCount_not_union :
    getTotalNoteCount c1DeepEnv (str "a") = 0 ∧
    (descUnion c1DeepEnv 52 (str "a")).card = 1 ∧
    (∃ n, alFind c1DeepEnv (str "a") = some n ∧ str "a/a" ∈ n.children) ∧
    getTotalNoteCount c1DeepEnv (str "a/a") = 1 := by
  refine ⟨by decide, by decide,
    ⟨⟨str "a", str "a", str "a", [str "a/a"], ∅⟩, by decide, by decide⟩, by decide⟩
